import Mathlib

/-!
# Verification of the transaction normalization and analytics pipeline

Shallow embedding of the core of the `financial-analysis` repository:
the date normalizer, categorizer, statement parser (`src/utils.ts`), the
dedup filter (`domain/transactions/dedupe.ts`), and the analytics engine
(`domain/analytics/recurring.ts`, `forecast.ts`, anomaly detection and
category aggregation).

Modelling conventions:
* JavaScript strings are modelled as `List Char`; all string operations the
  code uses (`trim`, `toLowerCase`, `toUpperCase`, `split`, `includes`,
  `startsWith`, regexes) are given explicit executable definitions on char
  lists that mirror the ECMAScript semantics on the inputs involved.
* JavaScript numbers are modelled as exact rationals `ℚ`.
* `new Date(Date.UTC(y, m, d))` and the `getUTC*` accessors are modelled by
  an explicit civil-calendar normalization (`jsDateUTC`), following the
  ECMAScript `MakeDay` algorithm: the month is folded into the year with
  floor division, then day overflow rolls into the following months.
* The generic string parsing of the host environment (`new Date(string)`
  for strings that match none of the three recognized patterns) is not part
  of the repository; it is a parameter `fb` of the embedded `parseDate`.
-/

namespace FinSpec

/-! ## Characters, digits and basic string operations -/

/-- `String(n)` for a natural number: big-endian decimal digits, with a fuel
argument so the definition is structural (the fuel `n + 1` always suffices). -/
def natDigitsCore : ℕ → ℕ → List Char
  | 0, _ => []
  | f + 1, n =>
    if n < 10 then [Char.ofNat (48 + n)]
    else natDigitsCore f (n / 10) ++ [Char.ofNat (48 + n % 10)]

/-- Decimal rendering of a natural number, as JavaScript `String(n)`. -/
def natDigits (n : ℕ) : List Char := natDigitsCore (n + 1) n

/-- Numeric value of a decimal digit character. -/
def digitVal (c : Char) : ℕ := c.toNat - 48

/-- `parseInt` on a string of decimal digits. -/
def digitsToNat (cs : List Char) : ℕ := cs.foldl (fun a c => 10 * a + digitVal c) 0

/-- Rendering of an integer, as JavaScript `String(i)`. -/
def intToChars (i : ℤ) : List Char :=
  if i < 0 then '-' :: natDigits i.natAbs else natDigits i.natAbs

/-- `String(n).padStart(2, '0')`: pad the decimal rendering to two characters. -/
def pad2 (n : ℕ) : List Char :=
  let s := natDigits n
  if s.length < 2 then '0' :: s else s

/-- JavaScript `s.split(sep)` for a one-character separator. -/
def splitOnChar (sep : Char) : List Char → List (List Char)
  | [] => [[]]
  | c :: cs =>
    if c = sep then [] :: splitOnChar sep cs
    else
      match splitOnChar sep cs with
      | [] => [[c]]
      | g :: gs => (c :: g) :: gs

/-- Join with a one-character separator: left inverse of `splitOnChar`. -/
def joinSep (sep : Char) : List (List Char) → List Char
  | [] => []
  | [g] => g
  | g :: gs => g ++ sep :: joinSep sep gs

/-- JavaScript `s.trim()`: strip leading and trailing whitespace. -/
def trimChars (cs : List Char) : List Char :=
  ((cs.dropWhile Char.isWhitespace).reverse.dropWhile Char.isWhitespace).reverse

/-- JavaScript `s.toLowerCase()` on the ASCII strings involved. -/
def toLowerChars (cs : List Char) : List Char := cs.map Char.toLower

/-- JavaScript `s.toUpperCase()` on the ASCII strings involved. -/
def toUpperChars (cs : List Char) : List Char := cs.map Char.toUpper

/-- JavaScript `haystack.includes(needle)`: substring containment. -/
def containsSub (hay sub : List Char) : Bool :=
  (List.range (hay.length + 1)).any fun i => sub.isPrefixOf (hay.drop i)

/-! ### Lemmas: decimal rendering round-trips -/

theorem natDigitsCore_fuel_eq (f₁ f₂ n : ℕ) (h₁ : n < 10 ^ (f₁ + 1)) (h₂ : n < 10 ^ (f₂ + 1)) :
    natDigitsCore (f₁ + 1) n = natDigitsCore (f₂ + 1) n := by
  induction f₁ generalizing f₂ n with
  | zero =>
    have hn : n < 10 := by simpa using h₁
    simp [natDigitsCore, hn]
  | succ f ih =>
    by_cases hn : n < 10
    · simp [natDigitsCore, hn]
    · match f₂, h₂ with
      | 0, h₂ => simp at h₂; omega
      | f₂ + 1, h₂ =>
        have e1 : natDigitsCore (f + 1 + 1) n
            = natDigitsCore (f + 1) (n / 10) ++ [Char.ofNat (48 + n % 10)] := by
          rw [natDigitsCore, if_neg hn]
        have e2 : natDigitsCore (f₂ + 1 + 1) n
            = natDigitsCore (f₂ + 1) (n / 10) ++ [Char.ofNat (48 + n % 10)] := by
          rw [natDigitsCore, if_neg hn]
        rw [e1, e2, ih f₂ (n / 10) _ _]
        · exact Nat.div_lt_of_lt_mul (by rw [pow_succ] at h₁; omega)
        · exact Nat.div_lt_of_lt_mul (by rw [pow_succ] at h₂; omega)

theorem lt_pow_self_10 (n : ℕ) : n < 10 ^ n := Nat.lt_pow_self (by norm_num) n

theorem natDigits_eq_core (n f : ℕ) (h : n < 10 ^ (f + 1)) :
    natDigits n = natDigitsCore (f + 1) n :=
  natDigitsCore_fuel_eq _ _ _ (by
    calc n < 10 ^ n := lt_pow_self_10 n
    _ ≤ 10 ^ (n + 1) := Nat.pow_le_pow_right (by omega) (by omega)) h

theorem foldl_digits (acc : ℕ) (b : List Char) :
    List.foldl (fun a c => 10 * a + digitVal c) acc b = acc * 10 ^ b.length + digitsToNat b := by
  induction b generalizing acc with
  | nil => simp [digitsToNat]
  | cons c cs ih =>
    have hcd : digitsToNat (c :: cs) = digitVal c * 10 ^ cs.length + digitsToNat cs := by
      show List.foldl _ 0 (c :: cs) = _
      rw [List.foldl_cons, ih]
      norm_num
    rw [List.foldl_cons, ih, hcd]
    simp [pow_succ]
    ring

theorem digitsToNat_append (a b : List Char) :
    digitsToNat (a ++ b) = digitsToNat a * 10 ^ b.length + digitsToNat b := by
  show List.foldl _ 0 (a ++ b) = _
  rw [List.foldl_append, foldl_digits]
  rfl

theorem digitVal_ofNat (d : ℕ) (h : d < 10) : digitVal (Char.ofNat (48 + d)) = d := by
  interval_cases d <;> decide

/-- Digit characters produced by `natDigitsCore` are decimal digits. -/
theorem natDigitsCore_isDigit (f n : ℕ) : ∀ c ∈ natDigitsCore f n, c.isDigit = true := by
  induction f generalizing n with
  | zero => simp [natDigitsCore]
  | succ f ih =>
    intro c hc
    simp only [natDigitsCore] at hc
    by_cases h : n < 10
    · simp [h] at hc
      subst hc
      interval_cases n <;> decide
    · simp [h] at hc
      rcases hc with hc | hc
      · exact ih _ c hc
      · subst hc
        have : n % 10 < 10 := Nat.mod_lt _ (by omega)
        interval_cases h : (n % 10) <;> decide

theorem natDigits_isDigit (n : ℕ) : ∀ c ∈ natDigits n, c.isDigit = true :=
  natDigitsCore_isDigit _ _

/-- Evaluating the rendered digits gives the number back. -/
theorem digitsToNat_natDigitsCore (f n : ℕ) (h : n < 10 ^ f) :
    digitsToNat (natDigitsCore f n) = n := by
  induction f generalizing n with
  | zero => simp at h; simp [natDigitsCore, digitsToNat]; omega
  | succ f ih =>
    simp only [natDigitsCore]
    by_cases hn : n < 10
    · rw [if_pos hn]
      simp [digitsToNat, digitVal_ofNat n hn]
    · rw [if_neg hn]
      rw [digitsToNat_append]
      have hd : n / 10 < 10 ^ f := Nat.div_lt_of_lt_mul (by rw [pow_succ] at h; omega)
      rw [ih _ hd]
      have : digitsToNat [Char.ofNat (48 + n % 10)] = n % 10 := by
        simp [digitsToNat, digitVal_ofNat _ (Nat.mod_lt _ (by omega))]
      rw [this]
      simp
      omega

theorem digitsToNat_natDigits (n : ℕ) : digitsToNat (natDigits n) = n :=
  digitsToNat_natDigitsCore _ _ (lt_of_lt_of_le (lt_pow_self_10 n)
    (Nat.pow_le_pow_right (by omega) (by omega)))

/-- Length of the rendering: `10^k ≤ n < 10^(k+1)` gives `k + 1` digits. -/
theorem natDigitsCore_length (f n k : ℕ) (hlo : 10 ^ k ≤ n) (hhi : n < 10 ^ (k + 1))
    (hf : n < 10 ^ f) : (natDigitsCore f n).length = k + 1 := by
  induction f generalizing n k with
  | zero => simp at hf; omega
  | succ f ih =>
    simp only [natDigitsCore]
    by_cases hn : n < 10
    · have : k = 0 := by
        by_contra hk
        have : 10 ^ 1 ≤ 10 ^ k := Nat.pow_le_pow_right (by omega) (by omega)
        simp at this; omega
      simp [hn, this]
    · simp only [if_neg hn]
      have hk : 1 ≤ k := by
        by_contra hk
        have : k = 0 := by omega
        subst this
        simp at hhi; omega
      rw [List.length_append]
      have hd1 : 10 ^ (k - 1) ≤ n / 10 := by
        have h10 : 10 ^ k / 10 ≤ n / 10 := Nat.div_le_div_right hlo
        have hk' : 10 ^ k / 10 = 10 ^ (k - 1) := by
          have hkk : 10 ^ k = 10 ^ (k - 1) * 10 := by
            rw [← pow_succ]; congr 1; omega
          rw [hkk]; omega
        omega
      have hd2 : n / 10 < 10 ^ ((k - 1) + 1) := by
        have : (k - 1) + 1 = k := by omega
        rw [this]
        exact Nat.div_lt_of_lt_mul (by rw [pow_succ] at hhi; omega)
      have hf' : n / 10 < 10 ^ f := Nat.div_lt_of_lt_mul (by rw [pow_succ] at hf; omega)
      rw [ih _ _ hd1 hd2 hf']
      simp
      omega

theorem natDigits_length (n k : ℕ) (hlo : 10 ^ k ≤ n) (hhi : n < 10 ^ (k + 1)) :
    (natDigits n).length = k + 1 :=
  natDigitsCore_length _ _ _ hlo hhi (lt_of_lt_of_le (lt_pow_self_10 n)
    (Nat.pow_le_pow_right (by omega) (by omega)))

/-! ## The JavaScript UTC date model

`new Date(Date.UTC(year, month, day))` in `parseDate` (src/utils.ts) builds a
date from a possibly out-of-range (0-based) month and day and the `getUTC*`
accessors read back the normalized civil fields.  `jsDateUTC` implements the
ECMAScript `MakeDay` normalization directly on civil triples: the month is
folded into the year by floor division, day `0` steps back to the last day of
the previous month, and day overflow rolls forward month by month. -/

/-- The civil (UTC) fields of a JavaScript `Date` at midnight:
`year = getUTCFullYear()`, `month = getUTCMonth()` (0-based),
`day = getUTCDate()` (1-based). -/
structure JSDate where
  year : ℤ
  month : ℕ
  day : ℕ
deriving DecidableEq, Repr

/-- Gregorian leap-year rule (as in ECMAScript `DaysInYear`). -/
def isLeap (y : ℤ) : Bool := (y.tmod 4 = 0 ∧ y.tmod 100 ≠ 0) ∨ y.tmod 400 = 0

/-- Days in the (0-based) month `m` of year `y`. -/
def daysInMonth (y : ℤ) (m : ℕ) : ℕ :=
  match m with
  | 0 => 31
  | 1 => if isLeap y then 29 else 28
  | 2 => 31
  | 3 => 30
  | 4 => 31
  | 5 => 30
  | 6 => 31
  | 7 => 31
  | 8 => 30
  | 9 => 31
  | 10 => 30
  | _ => 31

theorem daysInMonth_pos (y : ℤ) (m : ℕ) : 1 ≤ daysInMonth y m := by
  unfold daysInMonth
  split <;> first | omega | split <;> omega

/-- Roll a day count `d ≥ 1` forward from the first of month `m` (0-based,
`m ≤ 11`) of year `y`; the fuel is always at least the recursion depth because
each step removes at least one day. -/
def rollDayCore : ℕ → ℤ → ℕ → ℕ → JSDate
  | 0, y, m, d => ⟨y, m, d⟩
  | f + 1, y, m, d =>
    if d ≤ daysInMonth y m then ⟨y, m, d⟩
    else if m = 11 then rollDayCore f (y + 1) 0 (d - 31)
    else rollDayCore f y (m + 1) (d - daysInMonth y m)

/-- `new Date(Date.UTC(y, m, d))` followed by the `getUTC*` accessors:
ECMAScript `MakeFullYear` (`Date.UTC` maps a year argument `0–99` to
`1900 + year`) followed by `MakeDay` on a 0-based month `m : ℤ` and day
`d : ℕ`. -/
def jsDateUTC (y m : ℤ) (d : ℕ) : JSDate :=
  let yr : ℤ := if 0 ≤ y ∧ y ≤ 99 then 1900 + y else y
  let y1 : ℤ := yr + m.fdiv 12
  let m1 : ℕ := (m.emod 12).toNat
  if d = 0 then
    if m1 = 0 then ⟨y1 - 1, 11, 31⟩ else ⟨y1, m1 - 1, daysInMonth y1 (m1 - 1)⟩
  else rollDayCore d y1 m1 d

theorem rollDayCore_of_le (f : ℕ) (y : ℤ) (m d : ℕ) (h : d ≤ daysInMonth y m) (hf : 1 ≤ f) :
    rollDayCore f y m d = ⟨y, m, d⟩ := by
  cases f with
  | zero => rfl
  | succ f => simp [rollDayCore, h]

/-- On an in-range month and day of a year outside the `MakeFullYear`
window `0–99`, the JS date constructor is the identity. -/
theorem jsDateUTC_of_valid (y : ℤ) (m d : ℕ) (hy : ¬(0 ≤ y ∧ y ≤ 99))
    (hm : m ≤ 11) (hd1 : 1 ≤ d)
    (hd2 : d ≤ daysInMonth y m) : jsDateUTC y (m : ℤ) d = ⟨y, m, d⟩ := by
  have hfd : (m : ℤ).fdiv 12 = 0 := by
    rw [Int.fdiv_eq_ediv _ (by omega)]
    omega
  have hem : (m : ℤ).emod 12 = (m : ℤ) := Int.emod_eq_of_lt (by omega) (by omega)
  have hyr : (if 0 ≤ y ∧ y ≤ 99 then 1900 + y else y) = y := if_neg hy
  unfold jsDateUTC
  simp only [hfd, hem, hyr, add_zero, Int.toNat_natCast]
  rw [if_neg (by omega)]
  exact rollDayCore_of_le _ _ _ _ hd2 (by omega)

/-! ## parseDate and formatDate (src/utils.ts) -/

/-- Regex `^(\d{4})-(\d{1,2})-(\d{1,2})$` (pattern 1, `YYYY-M-D`):
on a match, the three captured groups as numbers. -/
def matchP1 (cs : List Char) : Option (ℕ × ℕ × ℕ) :=
  match splitOnChar '-' cs with
  | [a, b, c] =>
    if a.length = 4 ∧ a.all Char.isDigit ∧
       1 ≤ b.length ∧ b.length ≤ 2 ∧ b.all Char.isDigit ∧
       1 ≤ c.length ∧ c.length ≤ 2 ∧ c.all Char.isDigit then
      some (digitsToNat a, digitsToNat b, digitsToNat c)
    else none
  | _ => none

/-- Regex `^(\d{1,2})\/(\d{1,2})\/(\d{2,4})$` (pattern 2, `D/M/YY[YY]`). -/
def matchP2 (cs : List Char) : Option (ℕ × ℕ × ℕ) :=
  match splitOnChar '/' cs with
  | [a, b, c] =>
    if 1 ≤ a.length ∧ a.length ≤ 2 ∧ a.all Char.isDigit ∧
       1 ≤ b.length ∧ b.length ≤ 2 ∧ b.all Char.isDigit ∧
       2 ≤ c.length ∧ c.length ≤ 4 ∧ c.all Char.isDigit then
      some (digitsToNat a, digitsToNat b, digitsToNat c)
    else none
  | _ => none

/-- Regex `^(\d{1,2})-([a-zA-Z]{3})-(\d{2,4})$` (pattern 3, `D-Mon-YY[YY]`):
the middle group is kept as the raw three-letter month string. -/
def matchP3 (cs : List Char) : Option (ℕ × List Char × ℕ) :=
  match splitOnChar '-' cs with
  | [a, b, c] =>
    if 1 ≤ a.length ∧ a.length ≤ 2 ∧ a.all Char.isDigit ∧
       b.length = 3 ∧ b.all Char.isAlpha ∧
       2 ≤ c.length ∧ c.length ≤ 4 ∧ c.all Char.isDigit then
      some (digitsToNat a, b, digitsToNat c)
    else none
  | _ => none

/-- The fixed 12-entry month table of pattern 3. -/
def monthMap : List (List Char × ℕ) :=
  [(['j','a','n'], 0), (['f','e','b'], 1), (['m','a','r'], 2), (['a','p','r'], 3),
   (['m','a','y'], 4), (['j','u','n'], 5), (['j','u','l'], 6), (['a','u','g'], 7),
   (['s','e','p'], 8), (['o','c','t'], 9), (['n','o','v'], 10), (['d','e','c'], 11)]

def monthLookup (cs : List Char) : Option ℕ :=
  (monthMap.find? fun e => e.1 = cs).map Prod.snd

/-- Build the date of pattern 1/2 semantics and apply the round-trip check
`date.getUTCFullYear() === year && date.getUTCMonth() === month &&
date.getUTCDate() === day` (the code's `month` is the captured month minus 1). -/
def checkedDate (year mo d : ℕ) : Option JSDate :=
  let date := jsDateUTC (year : ℤ) ((mo : ℤ) - 1) d
  if date.year = (year : ℤ) ∧ (date.month : ℤ) = (mo : ℤ) - 1 ∧ date.day = d then
    some date
  else none

/-- Pattern 1 attempt of `parseDate`. -/
def tryP1 (cs : List Char) : Option JSDate :=
  match matchP1 cs with
  | some (y, mo, d) => checkedDate y mo d
  | none => none

/-- Pattern 2 attempt of `parseDate` (`dd/mm/yy` two-digit years become
`2000 + year`). -/
def tryP2 (cs : List Char) : Option JSDate :=
  match matchP2 cs with
  | some (d, mo, y) => checkedDate (if y < 100 then y + 2000 else y) mo d
  | none => none

/-- Pattern 3 attempt of `parseDate` (`dd-Mon-yy`). -/
def tryP3 (cs : List Char) : Option JSDate :=
  match matchP3 cs with
  | some (d, mon, y) =>
    let y' := if y < 100 then y + 2000 else y
    match monthLookup (toLowerChars mon) with
    | some m =>
      let date := jsDateUTC (y' : ℤ) (m : ℤ) d
      if date.year = (y' : ℤ) ∧ date.month = m ∧ date.day = d then some date else none
    | none => none
  | none => none

/-- `parseDate` of `src/utils.ts` on a string input.  The three patterns are
tried in order; when none of them yields a round-tripping date the code falls
back to `new Date(dateStr)`, the generic string parsing of the host
environment, which is not part of this repository and is therefore a
parameter `fb` (already composed with the code's final re-normalization to a
UTC civil date). -/
def parseDate (fb : List Char → Option JSDate) (cs0 : List Char) : Option JSDate :=
  let cs := trimChars cs0
  if cs = [] then none
  else
    match tryP1 cs with
    | some d => some d
    | none =>
      match tryP2 cs with
      | some d => some d
      | none =>
        match tryP3 cs with
        | some d => some d
        | none => fb cs

/-- `formatDate` of `src/utils.ts`: zero-padded `YYYY-MM-DD` serialization of
the UTC fields. -/
def formatDate (d : JSDate) : List Char :=
  intToChars d.year ++ '-' :: (pad2 (d.month + 1) ++ '-' :: pad2 d.day)

/-! ### Character classes and trimming -/

theorem isDigit_not_ws (c : Char) (h : c.isDigit = true) : c.isWhitespace = false := by
  have h32 : c ≠ ' ' := by intro hc; subst hc; exact absurd h (by decide)
  have h9 : c ≠ '\t' := by intro hc; subst hc; exact absurd h (by decide)
  have h10 : c ≠ '\n' := by intro hc; subst hc; exact absurd h (by decide)
  have h13 : c ≠ '\x0d' := by intro hc; subst hc; exact absurd h (by decide)
  simp [Char.isWhitespace, h32, h9, h10, h13]

theorem isAlpha_not_ws (c : Char) (h : c.isAlpha = true) : c.isWhitespace = false := by
  have h32 : c ≠ ' ' := by intro hc; subst hc; exact absurd h (by decide)
  have h9 : c ≠ '\t' := by intro hc; subst hc; exact absurd h (by decide)
  have h10 : c ≠ '\n' := by intro hc; subst hc; exact absurd h (by decide)
  have h13 : c ≠ '\x0d' := by intro hc; subst hc; exact absurd h (by decide)
  simp [Char.isWhitespace, h32, h9, h10, h13]

theorem isDigit_ne_dash (c : Char) (h : c.isDigit = true) : c ≠ '-' := by
  intro hc; subst hc; exact absurd h (by decide)

theorem isDigit_ne_slash (c : Char) (h : c.isDigit = true) : c ≠ '/' := by
  intro hc; subst hc; exact absurd h (by decide)

theorem isAlpha_ne_dash (c : Char) (h : c.isAlpha = true) : c ≠ '-' := by
  intro hc; subst hc; exact absurd h (by decide)

theorem dropWhile_eq_self_of (p : Char → Bool) (l : List Char)
    (h : ∀ c ∈ l, p c = false) : l.dropWhile p = l := by
  cases l with
  | nil => rfl
  | cons c cs => simp [List.dropWhile_cons, h c (by simp)]

/-- A string with no whitespace anywhere is unchanged by `trim`. -/
theorem trimChars_eq_self (cs : List Char) (h : ∀ c ∈ cs, c.isWhitespace = false) :
    trimChars cs = cs := by
  unfold trimChars
  rw [dropWhile_eq_self_of _ _ h,
      dropWhile_eq_self_of _ _ (fun c hc => h c (by simpa using hc)), List.reverse_reverse]

/-! ### splitOnChar and joinSep -/

theorem splitOnChar_ne_nil (sep : Char) (cs : List Char) : splitOnChar sep cs ≠ [] := by
  cases cs with
  | nil => simp [splitOnChar]
  | cons c cs =>
    simp only [splitOnChar]
    split
    · simp
    · cases h : splitOnChar sep cs <;> simp

theorem joinSep_splitOnChar (sep : Char) (cs : List Char) :
    joinSep sep (splitOnChar sep cs) = cs := by
  induction cs with
  | nil => rfl
  | cons c cs ih =>
    simp only [splitOnChar]
    by_cases hc : c = sep
    · rw [if_pos hc]
      subst hc
      cases h : splitOnChar c cs with
      | nil => exact absurd h (splitOnChar_ne_nil _ _)
      | cons g gs =>
        rw [h] at ih
        simp [joinSep, ih]
    · rw [if_neg hc]
      cases h : splitOnChar sep cs with
      | nil => exact absurd h (splitOnChar_ne_nil _ _)
      | cons g gs =>
        rw [h] at ih
        cases gs with
        | nil => simp_all [joinSep]
        | cons g' gs' => simp_all [joinSep]

theorem splitOnChar_of_not_mem (sep : Char) (cs : List Char) (h : sep ∉ cs) :
    splitOnChar sep cs = [cs] := by
  induction cs with
  | nil => rfl
  | cons c cs ih =>
    simp only [splitOnChar]
    rw [if_neg (by rintro rfl; exact h (by simp))]
    rw [ih (by intro hm; exact h (by simp [hm]))]

theorem splitOnChar_append (sep : Char) (a rest : List Char) (h : sep ∉ a) :
    splitOnChar sep (a ++ sep :: rest) = a :: splitOnChar sep rest := by
  induction a with
  | nil => simp [splitOnChar]
  | cons c cs ih =>
    have hc : c ≠ sep := by rintro rfl; exact h (by simp)
    have ih' : splitOnChar sep (cs ++ sep :: rest) = cs :: splitOnChar sep rest :=
      ih (fun hm => h (by simp [hm]))
    simp only [List.cons_append, splitOnChar, if_neg hc, List.append_eq, ih']

/-- Splitting the three-part join used by all three date patterns. -/
theorem splitOnChar_three (sep : Char) (a b c : List Char)
    (ha : sep ∉ a) (hb : sep ∉ b) (hc : sep ∉ c) :
    splitOnChar sep (a ++ sep :: (b ++ sep :: c)) = [a, b, c] := by
  rw [splitOnChar_append _ _ _ ha, splitOnChar_append _ _ _ hb,
      splitOnChar_of_not_mem _ _ hc]

/-! ### Inversion of the pattern matchers -/

theorem matchP1_inv (cs : List Char) (y mo d : ℕ) (h : matchP1 cs = some (y, mo, d)) :
    ∃ a b c, cs = a ++ '-' :: (b ++ '-' :: c)
      ∧ a.length = 4 ∧ 1 ≤ b.length ∧ b.length ≤ 2 ∧ 1 ≤ c.length ∧ c.length ≤ 2
      ∧ (∀ x ∈ a, x.isDigit = true) ∧ (∀ x ∈ b, x.isDigit = true)
      ∧ (∀ x ∈ c, x.isDigit = true)
      ∧ y = digitsToNat a ∧ mo = digitsToNat b ∧ d = digitsToNat c := by
  unfold matchP1 at h
  split at h
  case _ a b c heq =>
    split at h
    case isTrue hcond =>
      obtain ⟨hL, hA, hb1, hb2, hB, hc1, hc2, hC⟩ := hcond
      refine ⟨a, b, c, ?_, hL, hb1, hb2, hc1, hc2, ?_, ?_, ?_, ?_, ?_, ?_⟩
      · have hj := joinSep_splitOnChar '-' cs
        rw [heq] at hj
        simpa [joinSep] using hj.symm
      · simpa [List.all_eq_true] using hA
      · simpa [List.all_eq_true] using hB
      · simpa [List.all_eq_true] using hC
      · exact (by injection h with h'; obtain ⟨rfl, rfl, rfl⟩ := Prod.mk.injEq .. ▸ h'.symm; rfl)
      · cases h; rfl
      · cases h; rfl
    case isFalse => exact absurd h (by simp)
  case _ => exact absurd h (by simp)

theorem matchP2_inv (cs : List Char) (d mo y : ℕ) (h : matchP2 cs = some (d, mo, y)) :
    ∃ a b c, cs = a ++ '/' :: (b ++ '/' :: c)
      ∧ 1 ≤ a.length ∧ a.length ≤ 2 ∧ 1 ≤ b.length ∧ b.length ≤ 2
      ∧ 2 ≤ c.length ∧ c.length ≤ 4
      ∧ (∀ x ∈ a, x.isDigit = true) ∧ (∀ x ∈ b, x.isDigit = true)
      ∧ (∀ x ∈ c, x.isDigit = true)
      ∧ d = digitsToNat a ∧ mo = digitsToNat b ∧ y = digitsToNat c := by
  unfold matchP2 at h
  split at h
  case _ a b c heq =>
    split at h
    case isTrue hcond =>
      obtain ⟨ha1, ha2, hA, hb1, hb2, hB, hc1, hc2, hC⟩ := hcond
      refine ⟨a, b, c, ?_, ha1, ha2, hb1, hb2, hc1, hc2, ?_, ?_, ?_, ?_, ?_, ?_⟩
      · have hj := joinSep_splitOnChar '/' cs
        rw [heq] at hj
        simpa [joinSep] using hj.symm
      · simpa [List.all_eq_true] using hA
      · simpa [List.all_eq_true] using hB
      · simpa [List.all_eq_true] using hC
      · cases h; rfl
      · cases h; rfl
      · cases h; rfl
    case isFalse => exact absurd h (by simp)
  case _ => exact absurd h (by simp)

theorem matchP3_inv (cs : List Char) (d : ℕ) (mon : List Char) (y : ℕ)
    (h : matchP3 cs = some (d, mon, y)) :
    ∃ a c, cs = a ++ '-' :: (mon ++ '-' :: c)
      ∧ 1 ≤ a.length ∧ a.length ≤ 2 ∧ mon.length = 3
      ∧ 2 ≤ c.length ∧ c.length ≤ 4
      ∧ (∀ x ∈ a, x.isDigit = true) ∧ (∀ x ∈ mon, x.isAlpha = true)
      ∧ (∀ x ∈ c, x.isDigit = true)
      ∧ d = digitsToNat a ∧ y = digitsToNat c := by
  unfold matchP3 at h
  split at h
  case _ a b c heq =>
    split at h
    case isTrue hcond =>
      obtain ⟨ha1, ha2, hA, hb3, hB, hc1, hc2, hC⟩ := hcond
      have hbmon : b = mon := by cases h; rfl
      subst hbmon
      refine ⟨a, c, ?_, ha1, ha2, hb3, hc1, hc2, ?_, ?_, ?_, ?_, ?_⟩
      · have hj := joinSep_splitOnChar '-' cs
        rw [heq] at hj
        simpa [joinSep] using hj.symm
      · simpa [List.all_eq_true] using hA
      · simpa [List.all_eq_true] using hB
      · simpa [List.all_eq_true] using hC
      · cases h; rfl
      · cases h; rfl
    case isFalse => exact absurd h (by simp)
  case _ => exact absurd h (by simp)

/-- The round-trip check of patterns 1 and 2 succeeds exactly on the parsed
triple when the captured month and day are in calendar range and the year is
outside the `Date.UTC` `MakeFullYear` window `0–99`. -/
theorem checkedDate_of_valid (y mo d : ℕ) (h0 : 100 ≤ y) (h1 : 1 ≤ mo) (h2 : mo ≤ 12)
    (h3 : 1 ≤ d) (h4 : d ≤ daysInMonth (y : ℤ) (mo - 1)) :
    checkedDate y mo d = some ⟨(y : ℤ), mo - 1, d⟩ := by
  have hcast : (mo : ℤ) - 1 = ((mo - 1 : ℕ) : ℤ) := by omega
  unfold checkedDate
  rw [hcast, jsDateUTC_of_valid _ _ _ (by omega) (by omega) h3 h4]
  rw [if_pos ⟨rfl, rfl, rfl⟩]

theorem monthLookup_le (x : List Char) (m : ℕ) (h : monthLookup x = some m) : m ≤ 11 := by
  unfold monthLookup at h
  cases hf : monthMap.find? (fun e => e.1 = x) with
  | none => rw [hf] at h; simp at h
  | some e =>
    rw [hf] at h
    simp at h
    have hmem := List.mem_of_find?_eq_some hf
    subst h
    fin_cases hmem <;> simp [monthMap]

/-! ### parseDate on the three recognized patterns -/

/-- A string matching pattern 1 whose captured triple is a real calendar day
parses to exactly that day (no trimming, no fallback involved). -/
theorem parseDate_matchP1 (fb : List Char → Option JSDate) (cs : List Char) (y mo d : ℕ)
    (hm : matchP1 cs = some (y, mo, d)) (h0 : 100 ≤ y) (h1 : 1 ≤ mo) (h2 : mo ≤ 12)
    (h3 : 1 ≤ d) (h4 : d ≤ daysInMonth (y : ℤ) (mo - 1)) :
    parseDate fb cs = some ⟨(y : ℤ), mo - 1, d⟩ := by
  obtain ⟨a, b, c, hshape, hL, hb1, hb2, hc1, hc2, hA, hB, hC, hy, hmo, hd⟩ :=
    matchP1_inv cs y mo d hm
  have hnws : ∀ x ∈ cs, x.isWhitespace = false := by
    intro x hx
    rw [hshape] at hx
    simp only [List.mem_append, List.mem_cons] at hx
    rcases hx with hx | hx | hx
    · exact isDigit_not_ws _ (hA _ hx)
    · subst hx; decide
    · rcases hx with hx | hx
      · exact isDigit_not_ws _ (hB _ hx)
      · rcases hx with hx | hx
        · subst hx; decide
        · exact isDigit_not_ws _ (hC _ hx)
  have htrim : trimChars cs = cs := trimChars_eq_self _ hnws
  have hne : cs ≠ [] := by
    rw [hshape]; intro hcon
    rcases a with _ | ⟨x, xs⟩ <;> simp at hcon
  simp only [parseDate, htrim]
  rw [if_neg hne]
  unfold tryP1
  rw [hm]
  simp [checkedDate_of_valid y mo d h0 h1 h2 h3 h4]

/-- A string matching pattern 2 (`D/M/YY[YY]`) parses to the captured day,
month, and (2-digit-mapped) year when these form a real calendar day. -/
theorem parseDate_matchP2 (fb : List Char → Option JSDate) (cs : List Char) (d mo y : ℕ)
    (hm : matchP2 cs = some (d, mo, y)) (h1 : 1 ≤ mo) (h2 : mo ≤ 12) (h3 : 1 ≤ d)
    (h4 : d ≤ daysInMonth ((if y < 100 then y + 2000 else y : ℕ) : ℤ) (mo - 1)) :
    parseDate fb cs = some ⟨((if y < 100 then y + 2000 else y : ℕ) : ℤ), mo - 1, d⟩ := by
  obtain ⟨a, b, c, hshape, ha1, ha2, hb1, hb2, hc1, hc2, hA, hB, hC, hd, hmo, hy⟩ :=
    matchP2_inv cs d mo y hm
  have hnws : ∀ x ∈ cs, x.isWhitespace = false := by
    intro x hx
    rw [hshape] at hx
    simp only [List.mem_append, List.mem_cons] at hx
    rcases hx with hx | hx | hx
    · exact isDigit_not_ws _ (hA _ hx)
    · subst hx; decide
    · rcases hx with hx | hx
      · exact isDigit_not_ws _ (hB _ hx)
      · rcases hx with hx | hx
        · subst hx; decide
        · exact isDigit_not_ws _ (hC _ hx)
  have htrim : trimChars cs = cs := trimChars_eq_self _ hnws
  have hne : cs ≠ [] := by
    rw [hshape]; intro hcon
    rcases a with _ | ⟨x, xs⟩ <;> simp at hcon
  have hnodash : '-' ∉ cs := by
    rw [hshape]
    intro hmem
    simp only [List.mem_append, List.mem_cons] at hmem
    rcases hmem with hx | hx | hx
    · exact absurd (hA _ hx) (by decide)
    · exact absurd hx (by decide)
    · rcases hx with hx | hx
      · exact absurd (hB _ hx) (by decide)
      · rcases hx with hx | hx
        · exact absurd hx (by decide)
        · exact absurd (hC _ hx) (by decide)
  have hp1 : matchP1 cs = none := by
    unfold matchP1
    rw [splitOnChar_of_not_mem _ _ hnodash]
  simp only [parseDate, htrim]
  rw [if_neg hne]
  unfold tryP1
  rw [hp1]
  unfold tryP2
  rw [hm]
  simp [checkedDate_of_valid _ mo d (by split <;> omega) h1 h2 h3 h4]

/-- A string matching pattern 3 (`D-Mon-YY[YY]`) whose lowercased month
abbreviation is in the month table parses to that day when it is a real
calendar day. -/
theorem parseDate_matchP3 (fb : List Char → Option JSDate) (cs : List Char)
    (d : ℕ) (mon : List Char) (y m : ℕ)
    (hm : matchP3 cs = some (d, mon, y))
    (hlook : monthLookup (toLowerChars mon) = some m) (h3 : 1 ≤ d)
    (h4 : d ≤ daysInMonth ((if y < 100 then y + 2000 else y : ℕ) : ℤ) m) :
    parseDate fb cs = some ⟨((if y < 100 then y + 2000 else y : ℕ) : ℤ), m, d⟩ := by
  obtain ⟨a, c, hshape, ha1, ha2, hmon3, hc1, hc2, hA, hMon, hC, hd, hy⟩ :=
    matchP3_inv cs d mon y hm
  have hnws : ∀ x ∈ cs, x.isWhitespace = false := by
    intro x hx
    rw [hshape] at hx
    simp only [List.mem_append, List.mem_cons] at hx
    rcases hx with hx | hx | hx
    · exact isDigit_not_ws _ (hA _ hx)
    · subst hx; decide
    · rcases hx with hx | hx
      · exact isAlpha_not_ws _ (hMon _ hx)
      · rcases hx with hx | hx
        · subst hx; decide
        · exact isDigit_not_ws _ (hC _ hx)
  have htrim : trimChars cs = cs := trimChars_eq_self _ hnws
  have hne : cs ≠ [] := by
    rw [hshape]; intro hcon
    rcases a with _ | ⟨x, xs⟩ <;> simp at hcon
  have hsplit : splitOnChar '-' cs = [a, mon, c] := by
    rw [hshape]
    refine splitOnChar_three _ _ _ _ ?_ ?_ ?_
    · intro hx; exact absurd (hA _ hx) (by decide)
    · intro hx; exact absurd (hMon _ hx) (by decide)
    · intro hx; exact absurd (hC _ hx) (by decide)
  have hp1 : matchP1 cs = none := by
    unfold matchP1
    rw [hsplit]
    exact if_neg (by rintro ⟨hL4, _⟩; omega)
  have hnoslash : '/' ∉ cs := by
    rw [hshape]
    intro hmem
    simp only [List.mem_append, List.mem_cons] at hmem
    rcases hmem with hx | hx | hx
    · exact absurd (hA _ hx) (by decide)
    · exact absurd hx (by decide)
    · rcases hx with hx | hx
      · exact absurd (hMon _ hx) (by decide)
      · rcases hx with hx | hx
        · exact absurd hx (by decide)
        · exact absurd (hC _ hx) (by decide)
  have hp2 : matchP2 cs = none := by
    unfold matchP2
    rw [splitOnChar_of_not_mem _ _ hnoslash]
  have hmle : m ≤ 11 := monthLookup_le _ _ hlook
  simp only [parseDate, htrim]
  rw [if_neg hne]
  unfold tryP1
  rw [hp1]
  unfold tryP2
  rw [hp2]
  unfold tryP3
  rw [hm]
  simp only [hlook]
  rw [jsDateUTC_of_valid _ _ _ (by split <;> (push_cast; omega)) hmle h3 h4]
  simp

/-! ### formatDate as the zero-padded canonical serialization -/

theorem digitsToNat_cons_zero (s : List Char) : digitsToNat ('0' :: s) = digitsToNat s := by
  simp [digitsToNat, List.foldl_cons, digitVal]

theorem pad2_length (n : ℕ) (h : n ≤ 99) : (pad2 n).length = 2 := by
  by_cases hz : n = 0
  · subst hz; decide
  by_cases hn : n < 10
  · have h1 : (natDigits n).length = 0 + 1 := natDigits_length n 0 (by omega) (by simpa)
    simp [pad2, h1]
  · have h2 : (natDigits n).length = 1 + 1 :=
      natDigits_length n 1 (by omega) (by norm_num; omega)
    simp [pad2, h2]

theorem pad2_isDigit (n : ℕ) : ∀ c ∈ pad2 n, c.isDigit = true := by
  intro c hc
  simp only [pad2] at hc
  by_cases hl : (natDigits n).length < 2
  · rw [if_pos hl] at hc
    rcases List.mem_cons.mp hc with rfl | hc'
    · decide
    · exact natDigits_isDigit n c hc'
  · rw [if_neg hl] at hc
    exact natDigits_isDigit n c hc

theorem pad2_val (n : ℕ) : digitsToNat (pad2 n) = n := by
  unfold pad2
  by_cases hl : (natDigits n).length < 2
  · rw [if_pos hl, digitsToNat_cons_zero, digitsToNat_natDigits]
  · rw [if_neg hl, digitsToNat_natDigits]

theorem natDigits_length4 (y : ℕ) (h1 : 1000 ≤ y) (h2 : y ≤ 9999) :
    (natDigits y).length = 4 := by
  have := natDigits_length y 3 (by omega) (by norm_num; omega)
  omega

/-- `formatDate` on a valid day with a four-digit year is exactly the
`YYYY-MM-DD` join of the unpadded year and the zero-padded month and day. -/
theorem formatDate_eq (y mo d : ℕ) (hy1 : 1000 ≤ y) (hmo : 1 ≤ mo) :
    formatDate ⟨(y : ℤ), mo - 1, d⟩ = natDigits y ++ '-' :: (pad2 mo ++ '-' :: pad2 d) := by
  unfold formatDate intToChars
  simp only
  rw [if_neg (by omega)]
  have h1 : ((y : ℤ)).natAbs = y := Int.natAbs_ofNat y
  have h2 : mo - 1 + 1 = mo := by omega
  rw [h1, h2]

/-- The canonical serialization re-matches pattern 1 with the original
year, month and day. -/
theorem matchP1_formatDate (y mo d : ℕ) (hy1 : 1000 ≤ y) (hy2 : y ≤ 9999)
    (hmo1 : 1 ≤ mo) (hmo2 : mo ≤ 12) (hd2 : d ≤ 99) :
    matchP1 (natDigits y ++ '-' :: (pad2 mo ++ '-' :: pad2 d)) = some (y, mo, d) := by
  have hsplit : splitOnChar '-' (natDigits y ++ '-' :: (pad2 mo ++ '-' :: pad2 d))
      = [natDigits y, pad2 mo, pad2 d] := by
    refine splitOnChar_three _ _ _ _ ?_ ?_ ?_
    · intro hx; exact absurd (natDigits_isDigit _ _ hx) (by decide)
    · intro hx; exact absurd (pad2_isDigit _ _ hx) (by decide)
    · intro hx; exact absurd (pad2_isDigit _ _ hx) (by decide)
  unfold matchP1
  rw [hsplit]
  have hcond : (natDigits y).length = 4 ∧ (natDigits y).all Char.isDigit = true ∧
      1 ≤ (pad2 mo).length ∧ (pad2 mo).length ≤ 2 ∧ (pad2 mo).all Char.isDigit = true ∧
      1 ≤ (pad2 d).length ∧ (pad2 d).length ≤ 2 ∧ (pad2 d).all Char.isDigit = true := by
    refine ⟨natDigits_length4 y hy1 hy2, ?_, ?_, ?_, ?_, ?_, ?_, ?_⟩
    · simpa [List.all_eq_true] using natDigits_isDigit y
    · simp [pad2_length mo (by omega)]
    · simp [pad2_length mo (by omega)]
    · simpa [List.all_eq_true] using pad2_isDigit mo
    · simp [pad2_length d (by omega)]
    · simp [pad2_length d (by omega)]
    · simpa [List.all_eq_true] using pad2_isDigit d
  have hres : (if (natDigits y).length = 4 ∧ (natDigits y).all Char.isDigit = true ∧
      1 ≤ (pad2 mo).length ∧ (pad2 mo).length ≤ 2 ∧ (pad2 mo).all Char.isDigit = true ∧
      1 ≤ (pad2 d).length ∧ (pad2 d).length ≤ 2 ∧ (pad2 d).all Char.isDigit = true then
      some (digitsToNat (natDigits y), digitsToNat (pad2 mo), digitsToNat (pad2 d))
      else none) = some (y, mo, d) := by
    rw [if_pos hcond, digitsToNat_natDigits, pad2_val, pad2_val]
  exact hres

theorem daysInMonth_le_31 (y : ℤ) (m : ℕ) : daysInMonth y m ≤ 31 := by
  unfold daysInMonth
  split <;> first | omega | split <;> omega

/-- A real calendar day: month `1–12` (1-based) and day within the month. -/
def ValidDay (y : ℤ) (mo d : ℕ) : Prop :=
  1 ≤ mo ∧ mo ≤ 12 ∧ 1 ≤ d ∧ d ≤ daysInMonth y (mo - 1)

instance (y : ℤ) (mo d : ℕ) : Decidable (ValidDay y mo d) := by
  unfold ValidDay; infer_instance

/-- C2 — counterexample to the claim as stated.  `"2025-4-31"` matches date
pattern 1 (`YYYY-M-D`) and the resulting date does not round-trip (April has
30 days), yet `parseDate` does not return null: the code falls through to the
generic host parsing of the string, and a host parser that accepts the string
(as V8's `new Date("2025-4-31")`, which yields May 1 2025, does) makes
`parseDate` return its date. -/
theorem claim_C2_counterexample :
    (matchP1 (trimChars ("2025-4-31".toList))).isSome = true
    ∧ tryP1 (trimChars ("2025-4-31".toList)) = none
    ∧ parseDate (fun _ => some ⟨2025, 4, 1⟩) ("2025-4-31".toList) = some ⟨2025, 4, 1⟩ :=
  ⟨by decide, by decide, by decide⟩

/-- C2 (amended): for every input string, when each of the three recognized
patterns either fails to match or yields a date that does not round-trip
(`tryP1/tryP2/tryP3` return `none` on the trimmed input), **and** the generic
host calendar-string parsing also fails, `parseDate` returns null; in
particular `parseDate "invalid-date" = null` whenever the host parser rejects
`"invalid-date"`. -/
theorem claim_C2 :
    (∀ (fb : List Char → Option JSDate) (cs : List Char),
        tryP1 (trimChars cs) = none → tryP2 (trimChars cs) = none →
        tryP3 (trimChars cs) = none → fb (trimChars cs) = none →
        parseDate fb cs = none)
    ∧ (∀ fb : List Char → Option JSDate,
        fb ("invalid-date".toList) = none →
        parseDate fb ("invalid-date".toList) = none) := by
  have hmain : ∀ (fb : List Char → Option JSDate) (cs : List Char),
      tryP1 (trimChars cs) = none → tryP2 (trimChars cs) = none →
      tryP3 (trimChars cs) = none → fb (trimChars cs) = none →
      parseDate fb cs = none := by
    intro fb cs h1 h2 h3 hfb
    simp only [parseDate]
    by_cases he : trimChars cs = []
    · rw [if_pos he]
    · rw [if_neg he]
      simp [h1, h2, h3, hfb]
  refine ⟨hmain, fun fb hfb => hmain fb _ (by decide) (by decide) (by decide) ?_⟩
  rw [show trimChars ("invalid-date".toList) = "invalid-date".toList from by decide]
  exact hfb

/-- C2 — witness: with a failing host parser, `parseDate "invalid-date"`
evaluates to `none`. -/
theorem claim_C2_witness : parseDate (fun _ => none) ("invalid-date".toList) = none :=
  claim_C2.2 (fun _ => none) rfl

/-- C3 — counterexample to the claim as stated.  `Date.UTC` applies
`MakeFullYear`: a year argument `0–99` becomes `1900 + year`.  The valid
calendar day January 1 of year 50 is represented `"0050-1-1"` in the
`YYYY-M-D` format and matches pattern 1, but the constructed date is
1950-01-01, the round-trip check `getUTCFullYear() === year` fails, and
`parseDate` falls through to the host parser — with a rejecting host it
returns null, not the day. -/
theorem claim_C3_counterexample :
    ValidDay (50 : ℤ) 1 1
    ∧ matchP1 ("0050-1-1".toList) = some (50, 1, 1)
    ∧ jsDateUTC 50 0 1 = ⟨1950, 0, 1⟩
    ∧ parseDate (fun _ => none) ("0050-1-1".toList) = none :=
  ⟨by decide, by decide, by decide, by decide⟩

/-- C3 (amended): every valid calendar day of a year `≥ 100` — outside the
`Date.UTC` `MakeFullYear` window, which remaps years `0–99` to
`1900 + year` and so breaks the round-trip check — parses identically from
any of its representations in the three recognized formats, and
`formatDate` serializes it to the zero-padded canonical `YYYY-MM-DD`
string, which pattern 1 parses back — the round-trip law.  "YYYY" is read
as a four-digit year (`1000 ≤ y ≤ 9999`) where the canonical form's shape
is asserted; 2-digit years of patterns 2 and 3 are mapped to
`2000 + year`, and the pattern-3 month abbreviation goes through the
case-insensitive month table. -/
theorem claim_C3 :
    (∀ (fb : List Char → Option JSDate) (cs : List Char) (y mo d : ℕ),
        matchP1 cs = some (y, mo, d) → 100 ≤ y → ValidDay (y : ℤ) mo d →
        parseDate fb cs = some ⟨(y : ℤ), mo - 1, d⟩)
    ∧ (∀ (fb : List Char → Option JSDate) (cs : List Char) (d mo yraw : ℕ),
        matchP2 cs = some (d, mo, yraw) →
        ValidDay ((if yraw < 100 then yraw + 2000 else yraw : ℕ) : ℤ) mo d →
        parseDate fb cs =
          some ⟨((if yraw < 100 then yraw + 2000 else yraw : ℕ) : ℤ), mo - 1, d⟩)
    ∧ (∀ (fb : List Char → Option JSDate) (cs : List Char) (d : ℕ) (mon : List Char)
        (yraw m : ℕ),
        matchP3 cs = some (d, mon, yraw) →
        monthLookup (toLowerChars mon) = some m →
        ValidDay ((if yraw < 100 then yraw + 2000 else yraw : ℕ) : ℤ) (m + 1) d →
        parseDate fb cs =
          some ⟨((if yraw < 100 then yraw + 2000 else yraw : ℕ) : ℤ), m, d⟩)
    ∧ (∀ (fb : List Char → Option JSDate) (y mo d : ℕ),
        ValidDay (y : ℤ) mo d → 1000 ≤ y → y ≤ 9999 →
        formatDate ⟨(y : ℤ), mo - 1, d⟩ = natDigits y ++ '-' :: (pad2 mo ++ '-' :: pad2 d)
        ∧ parseDate fb (formatDate ⟨(y : ℤ), mo - 1, d⟩) = some ⟨(y : ℤ), mo - 1, d⟩) := by
  refine ⟨?_, ?_, ?_, ?_⟩
  · intro fb cs y mo d hm h0 ⟨h1, h2, h3, h4⟩
    exact parseDate_matchP1 fb cs y mo d hm h0 h1 h2 h3 h4
  · intro fb cs d mo yraw hm ⟨h1, h2, h3, h4⟩
    exact parseDate_matchP2 fb cs d mo yraw hm h1 h2 h3 h4
  · intro fb cs d mon yraw m hm hlook ⟨h1, h2, h3, h4⟩
    have h4' : d ≤ daysInMonth ((if yraw < 100 then yraw + 2000 else yraw : ℕ) : ℤ) m := by
      simpa using h4
    exact parseDate_matchP3 fb cs d mon yraw m hm hlook h3 h4'
  · intro fb y mo d ⟨h1, h2, h3, h4⟩ hy1 hy2
    have hfmt := formatDate_eq y mo d (by omega) h1
    refine ⟨hfmt, ?_⟩
    rw [hfmt]
    exact parseDate_matchP1 fb _ y mo d
      (matchP1_formatDate y mo d hy1 hy2 h1 h2
        (le_trans h4 (le_trans (daysInMonth_le_31 _ _) (by omega))))
      (by omega) h1 h2 h3 h4

/-- C3 — witness: the day 2025-11-08 in each representation, and the
serialize/parse round trip. -/
theorem claim_C3_witness :
    parseDate (fun _ => none) ("2025-11-08".toList) = some ⟨2025, 10, 8⟩
    ∧ parseDate (fun _ => none) ("08/11/2025".toList) = some ⟨2025, 10, 8⟩
    ∧ parseDate (fun _ => none) ("08-Nov-25".toList) = some ⟨2025, 10, 8⟩
    ∧ parseDate (fun _ => none) (formatDate ⟨2025, 10, 8⟩) = some ⟨2025, 10, 8⟩ := by
  refine ⟨?_, ?_, ?_, ?_⟩
  · exact claim_C3.1 _ _ 2025 11 8 (by decide) (by decide) (by decide)
  · exact claim_C3.2.1 _ _ 8 11 2025 (by decide) (by decide)
  · exact claim_C3.2.2.1 _ _ 8 ("Nov".toList) 25 10 (by decide) (by decide) (by decide)
  · exact (claim_C3.2.2.2 (fun _ => none) 2025 11 8 (by decide) (by decide) (by decide)).2

/-! ## getCategory (src/utils.ts): keyword categorizer

The keyword table (`categorizationMap`) is injected as a parameter: an
ordered list of `(keyword, label)` pairs, iterated in order as
`Map.prototype.entries` does. -/

/-- Lexicographic order on char lists: JavaScript's default string
comparison used by `Array.prototype.sort()` on the ASCII labels involved. -/
def lexLe : List Char → List Char → Bool
  | [], _ => true
  | _ :: _, [] => false
  | a :: as, b :: bs => if a < b then true else if b < a then false else lexLe as bs

theorem lexLe_total (a b : List Char) : lexLe a b = true ∨ lexLe b a = true := by
  induction a generalizing b with
  | nil => left; rfl
  | cons x xs ih =>
    cases b with
    | nil => right; rfl
    | cons y ys =>
      rcases lt_trichotomy x y with h | h | h
      · left; simp [lexLe, h]
      · subst h
        rcases ih ys with h' | h' <;> [left; right] <;> simp [lexLe, h', lt_irrefl]
      · right; simp [lexLe, h]

theorem lexLe_trans (a b c : List Char) (h1 : lexLe a b = true) (h2 : lexLe b c = true) :
    lexLe a c = true := by
  induction a generalizing b c with
  | nil => rfl
  | cons x xs ih =>
    cases b with
    | nil => simp [lexLe] at h1
    | cons y ys =>
      cases c with
      | nil => simp [lexLe] at h2
      | cons z zs =>
        simp only [lexLe] at h1 h2 ⊢
        rcases lt_trichotomy x y with hxy | hxy | hxy
        · rcases lt_trichotomy y z with hyz | hyz | hyz
          · simp [lt_trans hxy hyz]
          · subst hyz; simp [hxy]
          · simp [hxy, not_lt_of_gt hxy, hyz, not_lt_of_gt hyz] at h2
        · subst hxy
          rcases lt_trichotomy x z with hyz | hyz | hyz
          · simp [hyz]
          · subst hyz
            simp [lt_irrefl] at h1 h2 ⊢
            exact ih _ _ h1 h2
          · simp [lt_irrefl, hyz, not_lt_of_gt hyz] at h2
        · simp [hxy, not_lt_of_gt hxy] at h1

theorem lexLe_antisymm (a b : List Char) (h1 : lexLe a b = true) (h2 : lexLe b a = true) :
    a = b := by
  induction a generalizing b with
  | nil =>
    cases b with
    | nil => rfl
    | cons y ys => simp [lexLe] at h2
  | cons x xs ih =>
    cases b with
    | nil => simp [lexLe] at h1
    | cons y ys =>
      simp only [lexLe] at h1 h2
      rcases lt_trichotomy x y with hxy | hxy | hxy
      · simp [hxy, not_lt_of_gt hxy] at h2
      · subst hxy
        simp [lt_irrefl] at h1 h2
        rw [ih _ h1 h2]
      · simp [hxy, not_lt_of_gt hxy] at h1

/-- The ordering relation used to sort category labels. -/
def labelLe (a b : List Char) : Prop := lexLe a b = true

instance : DecidableRel labelLe := fun a b => by unfold labelLe; infer_instance

instance : IsTotal (List Char) labelLe := ⟨fun a b => lexLe_total a b⟩

instance : IsTrans (List Char) labelLe := ⟨fun a b c => lexLe_trans a b c⟩

instance : IsAntisymm (List Char) labelLe := ⟨fun a b => lexLe_antisymm a b⟩

/-- `Set.prototype.add`: append a value unless it is already present
(JavaScript `Set` iterates in insertion order). -/
def insertUniq (l : List (List Char)) (v : List Char) : List (List Char) :=
  if v ∈ l then l else l ++ [v]

/-- `getCategory` of `src/utils.ts` over an injected keyword table:
uppercase the description, collect (as a set, in table order) the labels of
every keyword contained in it, and return them sorted and joined with `-`,
or `"Other"` if none matched. -/
def getCategory (table : List (List Char × List Char)) (description : List Char) :
    List Char :=
  let desc := toUpperChars description
  let found := table.foldl
    (fun acc e => if containsSub desc (toUpperChars e.1) then insertUniq acc e.2 else acc) []
  if 0 < found.length then joinSep '-' (List.insertionSort labelLe found)
  else "Other".toList

/-- The categorizer as the spec words it: the distinct labels whose keyword
occurs case-insensitively as a substring of the uppercased description,
sorted lexicographically and joined with `-`; `"Other"` when no keyword
matches. -/
def getCategorySpec (table : List (List Char × List Char)) (description : List Char) :
    List Char :=
  let matched := (table.filter
    (fun e => containsSub (toUpperChars description) (toUpperChars e.1))).map Prod.snd
  if matched = [] then "Other".toList
  else joinSep '-' (List.insertionSort labelLe matched.dedup)

theorem insertUniq_mem (l : List (List Char)) (v x : List Char) :
    x ∈ insertUniq l v ↔ x ∈ l ∨ x = v := by
  unfold insertUniq
  split
  · constructor
    · exact Or.inl
    · rintro (hx | rfl) <;> assumption
  · simp

theorem insertUniq_nodup (l : List (List Char)) (v : List Char) (h : l.Nodup) :
    (insertUniq l v).Nodup := by
  unfold insertUniq
  split
  · exact h
  · simp_all [List.nodup_append]

theorem foldl_insertUniq_mem (desc : List Char) (table : List (List Char × List Char))
    (acc : List (List Char)) (v : List Char) :
    v ∈ table.foldl
      (fun acc e => if containsSub desc (toUpperChars e.1) then insertUniq acc e.2 else acc)
      acc
    ↔ v ∈ acc ∨ ∃ e ∈ table, containsSub desc (toUpperChars e.1) = true ∧ v = e.2 := by
  induction table generalizing acc with
  | nil => simp
  | cons e es ih =>
    simp only [List.foldl_cons]
    by_cases hm : containsSub desc (toUpperChars e.1) = true
    · rw [if_pos hm, ih]
      simp only [insertUniq_mem, List.mem_cons]
      constructor
      · rintro ((hv | rfl) | ⟨e', he', hc, rfl⟩)
        · exact Or.inl hv
        · exact Or.inr ⟨e, Or.inl rfl, hm, rfl⟩
        · exact Or.inr ⟨e', Or.inr he', hc, rfl⟩
      · rintro (hv | ⟨e', (rfl | he'), hc, rfl⟩)
        · exact Or.inl (Or.inl hv)
        · exact Or.inl (Or.inr rfl)
        · exact Or.inr ⟨e', he', hc, rfl⟩
    · rw [if_neg hm, ih]
      simp only [List.mem_cons]
      constructor
      · rintro (hv | ⟨e', he', hc, rfl⟩)
        · exact Or.inl hv
        · exact Or.inr ⟨e', Or.inr he', hc, rfl⟩
      · rintro (hv | ⟨e', (rfl | he'), hc, rfl⟩)
        · exact Or.inl hv
        · exact absurd hc hm
        · exact Or.inr ⟨e', he', hc, rfl⟩

theorem foldl_insertUniq_nodup (desc : List Char) (table : List (List Char × List Char))
    (acc : List (List Char)) (h : acc.Nodup) :
    (table.foldl
      (fun acc e => if containsSub desc (toUpperChars e.1) then insertUniq acc e.2 else acc)
      acc).Nodup := by
  induction table generalizing acc with
  | nil => exact h
  | cons e es ih =>
    simp only [List.foldl_cons]
    by_cases hm : containsSub desc (toUpperChars e.1) = true
    · rw [if_pos hm]; exact ih _ (insertUniq_nodup _ _ h)
    · rw [if_neg hm]; exact ih _ h

/-- Sorting is invariant under permutation (the label order is antisymmetric). -/
theorem insertionSort_eq_of_perm (l₁ l₂ : List (List Char)) (h : l₁.Perm l₂) :
    List.insertionSort labelLe l₁ = List.insertionSort labelLe l₂ :=
  List.eq_of_perm_of_sorted
    (((List.perm_insertionSort labelLe l₁).trans h).trans
      (List.perm_insertionSort labelLe l₂).symm)
    (List.sorted_insertionSort labelLe l₁) (List.sorted_insertionSort labelLe l₂)

/-- The source categorizer agrees with the spec's sorted-distinct-labels
description on every table and description. -/
theorem getCategory_eq_spec (table : List (List Char × List Char)) (desc : List Char) :
    getCategory table desc = getCategorySpec table desc := by
  unfold getCategory getCategorySpec
  simp only
  set found := table.foldl
    (fun acc e => if containsSub (toUpperChars desc) (toUpperChars e.1) then insertUniq acc e.2
      else acc) ([] : List (List Char)) with hfound
  set matched := (table.filter
    (fun e => containsSub (toUpperChars desc) (toUpperChars e.1))).map Prod.snd with hmatched
  have hmem : ∀ v, v ∈ found ↔ v ∈ matched.dedup := by
    intro v
    rw [List.mem_dedup, hfound, foldl_insertUniq_mem, hmatched]
    simp only [List.mem_map, List.mem_filter, List.not_mem_nil, false_or]
    constructor
    · rintro ⟨e, he, hc, rfl⟩; exact ⟨e, ⟨he, hc⟩, rfl⟩
    · rintro ⟨e, ⟨he, hc⟩, rfl⟩; exact ⟨e, he, hc, rfl⟩
  have hnd : found.Nodup := foldl_insertUniq_nodup _ _ _ List.nodup_nil
  have hperm : found.Perm matched.dedup :=
    (List.perm_ext_iff_of_nodup hnd (List.nodup_dedup _)).mpr hmem
  by_cases hm : matched = []
  · have hf : found = [] := by
      have := hperm
      rw [hm] at this
      simpa using this.eq_nil
    simp [hf, hm]
  · have hne : 0 < found.length := by
      rcases List.exists_mem_of_ne_nil _ (by simpa using hm) with ⟨v, hv⟩
      have : v ∈ found := (hmem v).mpr (by simpa [List.mem_dedup] using hv)
      exact List.length_pos_of_mem this
    rw [if_pos hne, if_neg hm]
    exact congrArg (joinSep '-') (insertionSort_eq_of_perm _ _ hperm)

/-- C5: `getCategory` returns the distinct labels whose keyword occurs
case-insensitively as a substring of the uppercased description, sorted
lexicographically and joined with `-` (the literal `"Other"` when no keyword
matches), and permuting the keyword table never changes the output. -/
theorem claim_C5 :
    (∀ (table : List (List Char × List Char)) (desc : List Char),
        getCategory table desc = getCategorySpec table desc)
    ∧ (∀ (t₁ t₂ : List (List Char × List Char)) (desc : List Char),
        t₁.Perm t₂ → getCategory t₁ desc = getCategory t₂ desc) := by
  refine ⟨getCategory_eq_spec, ?_⟩
  intro t₁ t₂ desc hp
  rw [getCategory_eq_spec, getCategory_eq_spec]
  unfold getCategorySpec
  simp only
  have hpm : ((t₁.filter
        (fun e => containsSub (toUpperChars desc) (toUpperChars e.1))).map Prod.snd).Perm
      ((t₂.filter
        (fun e => containsSub (toUpperChars desc) (toUpperChars e.1))).map Prod.snd) :=
    (hp.filter _).map _
  by_cases h1 :
      (t₁.filter (fun e => containsSub (toUpperChars desc) (toUpperChars e.1))).map Prod.snd
        = []
  · have h2 :
        (t₂.filter (fun e => containsSub (toUpperChars desc) (toUpperChars e.1))).map Prod.snd
          = [] := by
      have := hpm
      rw [h1] at this
      simpa using this.symm.eq_nil
    rw [h1, h2]
  · have h2 :
        (t₂.filter (fun e => containsSub (toUpperChars desc) (toUpperChars e.1))).map Prod.snd
          ≠ [] := by
      intro h2
      rw [h2] at hpm
      exact h1 hpm.eq_nil
    rw [if_neg h1, if_neg h2]
    exact congrArg (joinSep '-') (insertionSort_eq_of_perm _ _ hpm.dedup)

/-- C5 — witness: a three-entry table, its rotation, and a description
matching two labels. -/
theorem claim_C5_witness :
    getCategory
        [("food".toList, "FOOD".toList), ("swiggy".toList, "FOOD".toList),
         ("uber".toList, "TRANSPORT".toList)] ("Uber eats food order".toList)
      = getCategory
        [("uber".toList, "TRANSPORT".toList), ("food".toList, "FOOD".toList),
         ("swiggy".toList, "FOOD".toList)] ("Uber eats food order".toList)
    ∧ getCategory
        [("food".toList, "FOOD".toList), ("swiggy".toList, "FOOD".toList),
         ("uber".toList, "TRANSPORT".toList)] ("Uber eats food order".toList)
      = getCategorySpec
        [("food".toList, "FOOD".toList), ("swiggy".toList, "FOOD".toList),
         ("uber".toList, "TRANSPORT".toList)] ("Uber eats food order".toList) :=
  ⟨claim_C5.2 _ _ _ (by decide), claim_C5.1 _ _⟩

/-! ## Transactions and the dedup filter (domain/transactions/dedupe.ts) -/

/-- The transaction type tag (`'credit' | 'debit'` of src/types.ts). -/
inductive TxType
  | credit
  | debit
deriving DecidableEq, Repr

/-- The ledger record (src/types.ts `Transaction`); the optional
`recurring` display annotation is not modelled as no claim touches it. -/
structure Transaction where
  id : Option ℕ := none
  date : List Char
  description : List Char
  amount : ℚ
  type : TxType
  category : List Char
deriving DecidableEq, Repr

/-- `x.toFixed(2)` magnitude part: the integer nearest `x*100` (ties toward
the larger, i.e. away from zero after the sign split below), rendered with
two decimals. -/
def toFixed2Abs (q : ℚ) : List Char :=
  let n := (⌊q * 100 + 1 / 2⌋).toNat
  natDigits (n / 100) ++ '.' :: pad2 (n % 100)

/-- ECMAScript `Number.prototype.toFixed(2)`: the sign is split off first,
then the magnitude is rounded. -/
def toFixed2 (q : ℚ) : List Char :=
  if q < 0 then '-' :: toFixed2Abs (-q) else toFixed2Abs q

/-- `makeTransactionKey` of `domain/transactions/dedupe.ts`:
`trim(date) + '|' + lowercase(trim(description)) + '|' + amount.toFixed(2)`. -/
def makeTransactionKey (t : Transaction) : List Char :=
  trimChars t.date ++ '|' :: (toLowerChars (trimChars t.description) ++ '|' :: toFixed2 t.amount)

/-- `filterDuplicateStaged` of `domain/transactions/dedupe.ts`: one pass over
the staged candidates, counting those whose key is in the existing-key set
and keeping the others in order. -/
def filterDuplicateStaged (staged : List Transaction) (existingKeys : List (List Char)) :
    List Transaction × ℕ :=
  match staged with
  | [] => ([], 0)
  | t :: ts =>
    let rest := filterDuplicateStaged ts existingKeys
    if makeTransactionKey t ∈ existingKeys then (rest.1, rest.2 + 1)
    else (t :: rest.1, rest.2)

/-- C6: the dedup key is exactly the
`trim(date)|lowercase(trim(description))|amount.toFixed(2)` join, and
`filterDuplicateStaged` partitions the staged list by membership of the key
in the existing-key set: `duplicateCount` counts the members and `newOnes`
is the subsequence of non-members in original input order. -/
theorem claim_C6 :
    (∀ t : Transaction, makeTransactionKey t
        = trimChars t.date
            ++ '|' :: (toLowerChars (trimChars t.description) ++ '|' :: toFixed2 t.amount))
    ∧ (∀ (staged : List Transaction) (keys : List (List Char)),
        (filterDuplicateStaged staged keys).2
          = (staged.filter fun t => decide (makeTransactionKey t ∈ keys)).length
        ∧ (filterDuplicateStaged staged keys).1
          = staged.filter fun t => !decide (makeTransactionKey t ∈ keys)) := by
  refine ⟨fun _ => rfl, fun staged keys => ?_⟩
  induction staged with
  | nil => exact ⟨rfl, rfl⟩
  | cons t ts ih =>
    simp only [filterDuplicateStaged]
    by_cases hm : makeTransactionKey t ∈ keys
    · simp [hm, List.filter_cons, ih.1, ih.2]
    · simp [hm, List.filter_cons, ih.1, ih.2]

/-- Sample staged transaction of the repo's dedupe test. -/
def sampleTx1 : Transaction :=
  { date := "2025-03-01".toList, description := "Test Item".toList, amount := 123.456,
    type := TxType.debit, category := "OTHER".toList }

/-- The same transaction with a different amount: a distinct key. -/
def sampleTx2 : Transaction := { sampleTx1 with amount := 50 }

/-- C6 — witness: one staged duplicate and one new candidate give
`duplicateCount = 1` and `newOnes` holding exactly the new one. -/
theorem claim_C6_witness :
    (filterDuplicateStaged [sampleTx1, sampleTx2] [makeTransactionKey sampleTx1]).2 = 1
    ∧ (filterDuplicateStaged [sampleTx1, sampleTx2] [makeTransactionKey sampleTx1]).1
        = [sampleTx2] := by
  have hpart := (claim_C6.2 [sampleTx1, sampleTx2] [makeTransactionKey sampleTx1])
  have hf1 : toFixed2 ((123.456 : ℚ)) = "123.46".toList := by
    have hfl : (⌊(123.456 : ℚ) * 100 + 1 / 2⌋ : ℤ) = 12346 := by norm_num [Int.floor_eq_iff]
    simp only [toFixed2, toFixed2Abs]
    rw [if_neg (by norm_num), hfl]
    decide
  have hf2 : toFixed2 ((50 : ℚ)) = "50.00".toList := by
    have hfl : (⌊(50 : ℚ) * 100 + 1 / 2⌋ : ℤ) = 5000 := by norm_num [Int.floor_eq_iff]
    simp only [toFixed2, toFixed2Abs]
    rw [if_neg (by norm_num), hfl]
    decide
  have hk1 : makeTransactionKey sampleTx1 = "2025-03-01|test item|123.46".toList := by
    simp only [makeTransactionKey, sampleTx1, hf1]
    decide
  have hk2 : makeTransactionKey sampleTx2 = "2025-03-01|test item|50.00".toList := by
    simp only [makeTransactionKey, sampleTx2, sampleTx1, hf2]
    decide
  have hmem1 : decide (makeTransactionKey sampleTx1 ∈ [makeTransactionKey sampleTx1]) = true := by
    simp
  have hmem2 : decide (makeTransactionKey sampleTx2 ∈ [makeTransactionKey sampleTx1]) = false := by
    rw [hk1, hk2]
    decide
  have hne : makeTransactionKey sampleTx2 ≠ makeTransactionKey sampleTx1 := by
    rw [hk1, hk2]; decide
  refine ⟨?_, ?_⟩
  · rw [hpart.1]
    simp [List.filter_cons, hmem1, hmem2, hne]
  · rw [hpart.2]
    simp [List.filter_cons, hmem1, hmem2, hne]

/-! ## processXlsData (src/utils.ts): the statement parser

The parser starts from the decoded sheet: an array of rows of cells as
`XLSX.utils.sheet_to_json(ws, {header:1, raw:false, cellDates:true})`
returns it — absent cells (`undefined`), formatted strings, or `Date`
objects for date-typed cells.  The XLSX binary decoding itself is the
external ingestion boundary. -/

/-- A decoded spreadsheet cell. -/
inductive Cell
  | blank
  | str (cs : List Char)
  | date (d : JSDate)
deriving DecidableEq, Repr

/-- `String(cell || '')`.  A `Date` cell renders as a host date string;
it is modelled by its canonical serialization, which — like the host's
rendering — never equals the header tokens `'date'`/`'narration'` and never
starts with `'*'`, the only ways the rendered text is inspected. -/
def cellStr : Cell → List Char
  | .blank => []
  | .str cs => cs
  | .date d => formatDate d

/-- JavaScript truthiness of a cell (`undefined` and `''` are falsy). -/
def cellTruthy : Cell → Bool
  | .blank => false
  | .str [] => false
  | .str (_ :: _) => true
  | .date _ => true

/-- `parseDate` applied to a raw cell: a `Date` instance is re-created as a
UTC date from its calendar fields (`new Date(Date.UTC(d.getFullYear(),
d.getMonth(), d.getDate()))`, with the host timezone modelled as UTC),
strings go through the string parser. -/
def parseDateCell (fb : List Char → Option JSDate) : Cell → Option JSDate
  | .date d => some (jsDateUTC d.year (d.month : ℤ) d.day)
  | .str cs => parseDate fb cs
  | .blank => none

/-- `.replace(/[^0-9.-]/g, '')`: keep only digits, `.` and `-`. -/
def stripNonNumeric (cs : List Char) : List Char :=
  cs.filter fun c => c.isDigit || c = '.' || c = '-'

/-- JavaScript `parseFloat` on a stripped numeric string: optional leading
minus, integer digits, optional `.` fraction; `none` models `NaN`.  (After
the strip no exponent, `+` or whitespace can occur.) -/
def parseFloatQ (cs : List Char) : Option ℚ :=
  let p := match cs with
    | '-' :: r => (true, r)
    | _ => (false, cs)
  let intDs := p.2.takeWhile Char.isDigit
  let rest2 := p.2.drop intDs.length
  let fracDs := match rest2 with
    | '.' :: r2 => r2.takeWhile Char.isDigit
    | _ => []
  if intDs = [] ∧ fracDs = [] then none
  else
    let mag : ℚ := (digitsToNat intDs : ℚ) + (digitsToNat fracDs : ℚ) / (10 : ℚ) ^ fracDs.length
    some (if p.1 then -mag else mag)

/-- `parseFloat(String(x || '0').replace(/[^0-9.-]/g, '')) || 0`: a blank
cell counts as `'0'`, and `NaN` (as well as a parsed `0`, equally falsy)
collapses to `0`. -/
def parseMoney (c : Cell) : ℚ :=
  let s := if cellTruthy c then cellStr c else "0".toList
  (parseFloatQ (stripNonNumeric s)).getD 0

/-- `String(row[0] || '').trim().startsWith('*')`. -/
def startsWithStar (cs : List Char) : Bool :=
  match cs with
  | '*' :: _ => true
  | _ => false

/-- A row's cells as compared during header search:
`String(cell || '').trim().toLowerCase()`. -/
def normCells (row : List Cell) : List (List Char) :=
  row.map fun c => toLowerChars (trimChars (cellStr c))

/-- A header row contains both a `date` and a `narration` cell. -/
def isHeaderRow (row : List Cell) : Bool :=
  (normCells row).contains ("date".toList) && (normCells row).contains ("narration".toList)

/-- The transaction built from a parsed date, raw description cell and
signed amount: `type` is derived from the sign of `amount`
(`amount > 0 ? 'credit' : 'debit'`), the category from the untrimmed
description text. -/
def mkParsedTx (table : List (List Char × List Char)) (pd : JSDate) (desc : List Char)
    (amount : ℚ) : Transaction :=
  { date := formatDate pd, description := trimChars desc, amount := amount,
    type := if 0 < amount then TxType.credit else TxType.debit,
    category := getCategory table desc }

/-- One data row of `processXlsData`; `none` models every skipped row
(empty/separator rows, missing date or description, unparseable date, no
cash movement). -/
def processRow (fb : List Char → Option JSDate) (table : List (List Char × List Char))
    (dateIdx narrIdx wIdx dIdx : ℕ) (row : List Cell) : Option Transaction :=
  if row.length = 0 then none
  else if startsWithStar (trimChars (cellStr (row.getD 0 .blank))) then none
  else
    let dateInput := row.getD dateIdx .blank
    let description := row.getD narrIdx .blank
    if cellTruthy dateInput = false ∨ cellTruthy description = false
        ∨ trimChars (cellStr description) = [] then none
    else
      match parseDateCell fb dateInput with
      | none => none
      | some pd =>
        let debit := parseMoney (row.getD wIdx .blank)
        let credit := parseMoney (row.getD dIdx .blank)
        if 0 < credit then some (mkParsedTx table pd (cellStr description) credit)
        else if 0 < debit then some (mkParsedTx table pd (cellStr description) (-debit))
        else none

/-- The error text for a missing header row. -/
def headerNotFoundMsg : List Char :=
  ("Could not find transaction headers (e.g., 'Date', 'Narration') in the file. "
    ++ "The parser looks for a row containing these keywords to identify where "
    ++ "transactions begin.").toList

/-- The error text for missing required columns. -/
def columnsMissingMsg : List Char :=
  ("Could not find all required columns: 'Date', 'Narration', 'Withdrawal Amt.', "
    ++ "and 'Deposit Amt.' in the header row. Please check the file.").toList

/-- `processXlsData` of `src/utils.ts` from the decoded sheet on: an empty
sheet returns an empty list; otherwise the first row holding both `date` and
`narration` becomes the header, the four required columns are located in it
(else a descriptive error), and the remaining rows map through `processRow`
with invalid rows dropped. -/
def processXlsData (fb : List Char → Option JSDate) (table : List (List Char × List Char))
    (aoa : List (List Cell)) : Except (List Char) (List Transaction) :=
  if aoa.length = 0 then .ok []
  else
    match aoa.findIdx? isHeaderRow with
    | none => .error headerNotFoundMsg
    | some i =>
      let headerRow := normCells (aoa.getD i [])
      let dataRows := aoa.drop (i + 1)
      match headerRow.findIdx? (fun x => x = ("date".toList)),
          headerRow.findIdx? (fun x => x = ("narration".toList)),
          headerRow.findIdx? (fun x => x = ("withdrawal amt.".toList)),
          headerRow.findIdx? (fun x => x = ("deposit amt.".toList)) with
      | some dateIdx, some narrIdx, some wIdx, some dIdx =>
        .ok (dataRows.filterMap (processRow fb table dateIdx narrIdx wIdx dIdx))
      | _, _, _, _ => .error columnsMissingMsg

/-- C1 — counterexample to the claim as stated: on a document with zero rows
`processXlsData` does not fail; it returns a recovered empty transaction
list (`if (aoa.length === 0) return [];`). -/
theorem claim_C1_counterexample :
    processXlsData (fun _ => none) [] [] = Except.ok [] := rfl

/-- C1 (amended): a zero-row document yields `ok []` (an empty list, not an
error); for a nonempty document the parser fails with the descriptive
header-row error when no row holds both `date` and `narration`, and with
the descriptive required-columns error when the header row found lacks any
of the four required columns. -/
theorem claim_C1 :
    (∀ (fb : List Char → Option JSDate) (table : List (List Char × List Char)),
        processXlsData fb table [] = Except.ok [])
    ∧ (∀ (fb : List Char → Option JSDate) (table : List (List Char × List Char))
        (aoa : List (List Cell)), aoa ≠ [] → aoa.findIdx? isHeaderRow = none →
        processXlsData fb table aoa = Except.error headerNotFoundMsg)
    ∧ (∀ (fb : List Char → Option JSDate) (table : List (List Char × List Char))
        (aoa : List (List Cell)) (i : ℕ), aoa ≠ [] → aoa.findIdx? isHeaderRow = some i →
        ((normCells (aoa.getD i [])).findIdx? (fun x => x = ("date".toList)) = none
          ∨ (normCells (aoa.getD i [])).findIdx? (fun x => x = ("narration".toList)) = none
          ∨ (normCells (aoa.getD i [])).findIdx? (fun x => x = ("withdrawal amt.".toList)) = none
          ∨ (normCells (aoa.getD i [])).findIdx? (fun x => x = ("deposit amt.".toList)) = none) →
        processXlsData fb table aoa = Except.error columnsMissingMsg) := by
  refine ⟨fun fb table => rfl, ?_, ?_⟩
  · intro fb table aoa hne hidx
    unfold processXlsData
    rw [if_neg (by simpa [List.length_eq_zero] using hne), hidx]
  · intro fb table aoa i hne hidx hmiss
    unfold processXlsData
    rw [if_neg (by simpa [List.length_eq_zero] using hne), hidx]
    simp only
    cases h1 : (normCells (aoa.getD i [])).findIdx? (fun x => x = ("date".toList)) with
    | none => rfl
    | some v1 =>
      cases h2 : (normCells (aoa.getD i [])).findIdx? (fun x => x = ("narration".toList)) with
      | none => rfl
      | some v2 =>
        cases h3 : (normCells (aoa.getD i [])).findIdx?
            (fun x => x = ("withdrawal amt.".toList)) with
        | none => rfl
        | some v3 =>
          cases h4 : (normCells (aoa.getD i [])).findIdx?
              (fun x => x = ("deposit amt.".toList)) with
          | none => rfl
          | some v4 =>
            exfalso
            rcases hmiss with h | h | h | h <;> simp_all

/-- C1 — witness: a one-row document without header tokens hits the header
error; a header row lacking the amount columns hits the columns error. -/
theorem claim_C1_witness :
    processXlsData (fun _ => none) [] [[Cell.str ("x".toList)]]
      = Except.error headerNotFoundMsg
    ∧ processXlsData (fun _ => none) []
        [[Cell.str ("Date".toList), Cell.str ("Narration".toList)]]
      = Except.error columnsMissingMsg :=
  ⟨claim_C1.2.1 _ _ _ (by decide) (by decide),
   claim_C1.2.2 _ _ _ 0 (by decide) (by decide) (by decide)⟩

/-- C4: every transaction the statement parser produces has a nonzero
amount; the amount is the parsed deposit when that is positive and minus the
parsed withdrawal otherwise (rows with neither are skipped); and the derived
`type` always agrees with the sign of `amount` (`credit` iff the amount is
nonnegative). -/
theorem claim_C4 :
    (∀ (fb : List Char → Option JSDate) (table : List (List Char × List Char))
        (dateIdx narrIdx wIdx dIdx : ℕ) (row : List Cell) (t : Transaction),
        processRow fb table dateIdx narrIdx wIdx dIdx row = some t →
        t.amount ≠ 0 ∧ (t.type = TxType.credit ↔ 0 ≤ t.amount)
        ∧ ((0 < parseMoney (row.getD dIdx .blank) ∧ t.amount = parseMoney (row.getD dIdx .blank))
          ∨ (¬ 0 < parseMoney (row.getD dIdx .blank) ∧ 0 < parseMoney (row.getD wIdx .blank)
             ∧ t.amount = -parseMoney (row.getD wIdx .blank))))
    ∧ (∀ (fb : List Char → Option JSDate) (table : List (List Char × List Char))
        (aoa : List (List Cell)) (res : List Transaction),
        processXlsData fb table aoa = Except.ok res →
        ∀ t ∈ res, t.amount ≠ 0 ∧ (t.type = TxType.credit ↔ 0 ≤ t.amount)) := by
  have hrow : ∀ (fb : List Char → Option JSDate) (table : List (List Char × List Char))
      (dateIdx narrIdx wIdx dIdx : ℕ) (row : List Cell) (t : Transaction),
      processRow fb table dateIdx narrIdx wIdx dIdx row = some t →
      t.amount ≠ 0 ∧ (t.type = TxType.credit ↔ 0 ≤ t.amount)
      ∧ ((0 < parseMoney (row.getD dIdx .blank) ∧ t.amount = parseMoney (row.getD dIdx .blank))
        ∨ (¬ 0 < parseMoney (row.getD dIdx .blank) ∧ 0 < parseMoney (row.getD wIdx .blank)
           ∧ t.amount = -parseMoney (row.getD wIdx .blank))) := by
    intro fb table dateIdx narrIdx wIdx dIdx row t h
    unfold processRow at h
    split at h
    · exact absurd h (by simp)
    split at h
    · exact absurd h (by simp)
    dsimp only at h
    split at h
    · exact absurd h (by simp)
    split at h
    · exact absurd h (by simp)
    case _ pd hpd =>
      split at h
      case isTrue hcr =>
        injection h with h'
        subst h'
        refine ⟨hcr.ne', ?_, Or.inl ⟨hcr, rfl⟩⟩
        show (if (0 : ℚ) < parseMoney (row.getD dIdx Cell.blank) then TxType.credit
            else TxType.debit) = TxType.credit ↔ 0 ≤ parseMoney (row.getD dIdx Cell.blank)
        rw [if_pos hcr]
        exact ⟨fun _ => le_of_lt hcr, fun _ => rfl⟩
      case isFalse hcr =>
        split at h
        case isTrue hdb =>
          injection h with h'
          subst h'
          have hneg : -parseMoney (row.getD wIdx Cell.blank) < 0 := by linarith
          refine ⟨hneg.ne, ?_, Or.inr ⟨hcr, hdb, rfl⟩⟩
          show (if (0 : ℚ) < -parseMoney (row.getD wIdx Cell.blank) then TxType.credit
              else TxType.debit) = TxType.credit
            ↔ 0 ≤ -parseMoney (row.getD wIdx Cell.blank)
          rw [if_neg (not_lt_of_gt hneg)]
          constructor
          · intro hcon; exact TxType.noConfusion hcon
          · intro hcon; exact absurd (lt_of_le_of_lt hcon hneg) (lt_irrefl _)
        case isFalse => exact absurd h (by simp)
  refine ⟨hrow, ?_⟩
  intro fb table aoa res h t ht
  unfold processXlsData at h
  split at h
  · cases h
    simp at ht
  · cases hidx : aoa.findIdx? isHeaderRow with
    | none => rw [hidx] at h; cases h
    | some i =>
      rw [hidx] at h
      simp only at h
      cases h1 : (normCells (aoa.getD i [])).findIdx? (fun x => x = ("date".toList)) with
      | none => rw [h1] at h; cases h
      | some dateIdx =>
        rw [h1] at h
        cases h2 : (normCells (aoa.getD i [])).findIdx? (fun x => x = ("narration".toList)) with
        | none => rw [h2] at h; cases h
        | some narrIdx =>
          rw [h2] at h
          cases h3 : (normCells (aoa.getD i [])).findIdx?
              (fun x => x = ("withdrawal amt.".toList)) with
          | none => rw [h3] at h; cases h
          | some wIdx =>
            rw [h3] at h
            cases h4 : (normCells (aoa.getD i [])).findIdx?
                (fun x => x = ("deposit amt.".toList)) with
            | none => rw [h4] at h; cases h
            | some dIdx =>
              rw [h4] at h
              cases h
              rcases List.mem_filterMap.mp ht with ⟨r, _, hpr⟩
              exact ⟨(hrow fb table dateIdx narrIdx wIdx dIdx r t hpr).1,
                (hrow fb table dateIdx narrIdx wIdx dIdx r t hpr).2.1⟩

theorem takeWhile_eq_self_of (p : Char → Bool) (l : List Char) (h : ∀ c ∈ l, p c = true) :
    l.takeWhile p = l := by
  induction l with
  | nil => rfl
  | cons c cs ih =>
    rw [List.takeWhile_cons, if_pos (h c (by simp))]
    rw [ih (fun x hx => h x (by simp [hx]))]

/-- A nonempty all-digit amount cell parses to its decimal value. -/
theorem parseMoney_digits (ds : List Char) (hne : ds ≠ []) (hds : ∀ c ∈ ds, c.isDigit = true) :
    parseMoney (Cell.str ds) = (digitsToNat ds : ℚ) := by
  match ds, hne with
  | c :: cs, _ =>
    have hc : c ≠ '-' := isDigit_ne_dash c (hds c (by simp))
    have htruthy : cellTruthy (Cell.str (c :: cs)) = true := rfl
    have hstrip : stripNonNumeric (c :: cs) = c :: cs := by
      unfold stripNonNumeric
      rw [List.filter_eq_self.mpr]
      intro a ha
      simp [hds a ha]
    have htake : (c :: cs).takeWhile Char.isDigit = c :: cs :=
      takeWhile_eq_self_of _ _ hds
    unfold parseMoney
    rw [htruthy]
    simp only [cellStr, if_pos]
    rw [hstrip]
    unfold parseFloatQ
    have hp : (match c :: cs with
        | '-' :: r => (true, r)
        | _ => (false, c :: cs)) = (false, c :: cs) := by
      split
      next r heq =>
        injection heq with h1 h2
        exact absurd h1 hc
      next => rfl
    rw [hp]
    simp only [htake]
    rw [List.drop_length]
    rw [if_neg (by simp)]
    simp [digitsToNat]

/-- The empty amount cell (`''`, falsy) counts as `'0'` and parses to `0`. -/
theorem parseMoney_empty : parseMoney (Cell.str []) = 0 := by
  have h : parseMoney (Cell.str []) =
      (digitsToNat ("0".toList) : ℚ) + (digitsToNat ([] : List Char) : ℚ) / (10 : ℚ) ^ (0 : ℕ) :=
    rfl
  rw [h, show digitsToNat ("0".toList) = 0 from by decide]
  norm_num [digitsToNat]

/-- The one data row of the spec's acceptance scenario:
`01/03/2025, "ATM WDL", 5000, ""`. -/
def atmRow : List Cell :=
  [Cell.str ("01/03/2025".toList), Cell.str ("ATM WDL".toList),
   Cell.str ("5000".toList), Cell.str ("".toList)]

/-- The transaction that row parses to. -/
def sampleAtm : Transaction :=
  { date := "2025-03-01".toList, description := "ATM WDL".toList, amount := -5000,
    type := TxType.debit, category := "Other".toList }

theorem processRow_atm :
    processRow (fun _ => none) [] 0 1 2 3 atmRow = some sampleAtm := by
  have hw : parseMoney (atmRow.getD 2 Cell.blank) = 5000 := by
    show parseMoney (Cell.str ("5000".toList)) = 5000
    rw [parseMoney_digits _ (by decide) (by decide)]
    rw [show digitsToNat ("5000".toList) = 5000 from by decide]
    norm_num
  have hd : parseMoney (atmRow.getD 3 Cell.blank) = 0 := parseMoney_empty
  have hpd : parseDateCell (fun _ => none) (atmRow.getD 0 Cell.blank)
      = some ⟨2025, 2, 1⟩ := by decide
  unfold processRow
  rw [if_neg (by decide), if_neg (by decide), if_neg (by decide)]
  rw [show atmRow.getD 0 Cell.blank = Cell.str ("01/03/2025".toList) from rfl] at hpd ⊢
  rw [hpd]
  simp only
  rw [hd, hw]
  rw [if_neg (by norm_num), if_pos (by norm_num)]
  unfold mkParsedTx sampleAtm
  congr 1

/-- C4 — witness: the spec's acceptance row `01/03/2025, "ATM WDL", 5000, ""`
parses to a debit of `-5000`, on which the invariants are discharged. -/
theorem claim_C4_witness :
    sampleAtm.amount ≠ 0 ∧ (sampleAtm.type = TxType.credit ↔ 0 ≤ sampleAtm.amount)
    ∧ ((0 < parseMoney (atmRow.getD 3 Cell.blank)
        ∧ sampleAtm.amount = parseMoney (atmRow.getD 3 Cell.blank))
      ∨ (¬ 0 < parseMoney (atmRow.getD 3 Cell.blank)
         ∧ 0 < parseMoney (atmRow.getD 2 Cell.blank)
         ∧ sampleAtm.amount = -parseMoney (atmRow.getD 2 Cell.blank))) :=
  claim_C4.1 (fun _ => none) [] 0 1 2 3 atmRow sampleAtm processRow_atm

/-! ## aggregateCategories (domain/analytics/aggregate): category breakdown -/

/-- One per-label summary row (`CategorySummary` of the analytics module). -/
structure CategorySummary where
  category : List Char
  expense : ℚ
  income : ℚ
deriving DecidableEq, Repr

/-- `(t.category || 'Other').split('-').filter(Boolean)`, with `['Other']`
pushed when the filtered split is empty. -/
def categoryLabels (t : Transaction) : List (List Char) :=
  let raw := if t.category = [] then "Other".toList else t.category
  let cats := (splitOnChar '-' raw).filter (fun c => !c.isEmpty)
  if cats = [] then ["Other".toList] else cats

/-- `if (t.type === 'credit') entry.income += t.amount; else
entry.expense += Math.abs(t.amount);` -/
def addToCat (e : CategorySummary) (t : Transaction) : CategorySummary :=
  if t.type = TxType.credit then { e with income := e.income + t.amount }
  else { e with expense := e.expense + |t.amount| }

/-- The `Map` update of `aggregateCategories`: find the label's entry (or
append a fresh zero entry, `Map` iteration being insertion-ordered) and
accumulate the transaction into it. -/
def updateCat (m : List CategorySummary) (c : List Char) (t : Transaction) :
    List CategorySummary :=
  match m with
  | [] => [addToCat ⟨c, 0, 0⟩ t]
  | e :: es => if e.category = c then addToCat e t :: es else e :: updateCat es c t

/-- `aggregateCategories`: accumulate every transaction into each of its
labels, then sort the summaries by descending expense (stable, as
`Array.prototype.sort`). -/
def aggregateCategories (ts : List Transaction) : List CategorySummary :=
  let m := ts.foldl (fun m t => (categoryLabels t).foldl (fun m c => updateCat m c t) m) []
  List.insertionSort (fun a b => b.expense ≤ a.expense) m

/-- The expense total reported for label `c` (0 when absent). -/
def catExpenseOf (m : List CategorySummary) (c : List Char) : ℚ :=
  match m.find? (fun e => e.category = c) with
  | some e => e.expense
  | none => 0

/-- The income total reported for label `c` (0 when absent). -/
def catIncomeOf (m : List CategorySummary) (c : List Char) : ℚ :=
  match m.find? (fun e => e.category = c) with
  | some e => e.income
  | none => 0

/-- A debit's contribution to one of its labels' expense totals. -/
def expenseContribution (t : Transaction) : ℚ :=
  if t.type = TxType.credit then 0 else |t.amount|

/-- A credit's contribution to one of its labels' income totals. -/
def incomeContribution (t : Transaction) : ℚ :=
  if t.type = TxType.credit then t.amount else 0

theorem addToCat_expense (e : CategorySummary) (t : Transaction) :
    (addToCat e t).expense = e.expense + expenseContribution t := by
  unfold addToCat expenseContribution
  split <;> simp

theorem addToCat_income (e : CategorySummary) (t : Transaction) :
    (addToCat e t).income = e.income + incomeContribution t := by
  unfold addToCat incomeContribution
  split <;> simp

theorem addToCat_category (e : CategorySummary) (t : Transaction) :
    (addToCat e t).category = e.category := by
  unfold addToCat
  split <;> rfl

theorem updateCat_expenseOf (m : List CategorySummary) (c : List Char) (t : Transaction)
    (c' : List Char) :
    catExpenseOf (updateCat m c t) c'
      = catExpenseOf m c' + (if c = c' then expenseContribution t else 0) := by
  induction m with
  | nil =>
    by_cases hc : c = c'
    · subst hc
      simp [updateCat, catExpenseOf, List.find?, addToCat_category, addToCat_expense]
    · simp [updateCat, catExpenseOf, List.find?, addToCat_category, hc]
  | cons e es ih =>
    by_cases he : e.category = c
    · simp only [updateCat, if_pos he]
      by_cases hc : c = c'
      · subst hc
        simp [catExpenseOf, List.find?_cons, addToCat_category, he, addToCat_expense]
      · have hne2 : ¬ e.category = c' := fun h => hc (he.symm.trans h)
        simp [catExpenseOf, List.find?_cons, addToCat_category, hne2, hc]
    · simp only [updateCat, if_neg he]
      by_cases he' : e.category = c'
      · have hcc : ¬ c = c' := fun hcc => he (hcc ▸ he')
        simp [catExpenseOf, List.find?_cons, he', hcc]
      · simp only [catExpenseOf, List.find?_cons, he', decide_False]
        simpa [catExpenseOf] using ih

theorem updateCat_incomeOf (m : List CategorySummary) (c : List Char) (t : Transaction)
    (c' : List Char) :
    catIncomeOf (updateCat m c t) c'
      = catIncomeOf m c' + (if c = c' then incomeContribution t else 0) := by
  induction m with
  | nil =>
    by_cases hc : c = c'
    · subst hc
      simp [updateCat, catIncomeOf, List.find?, addToCat_category, addToCat_income]
    · simp [updateCat, catIncomeOf, List.find?, addToCat_category, hc]
  | cons e es ih =>
    by_cases he : e.category = c
    · simp only [updateCat, if_pos he]
      by_cases hc : c = c'
      · subst hc
        simp [catIncomeOf, List.find?_cons, addToCat_category, he, addToCat_income]
      · have hne2 : ¬ e.category = c' := fun h => hc (he.symm.trans h)
        simp [catIncomeOf, List.find?_cons, addToCat_category, hne2, hc]
    · simp only [updateCat, if_neg he]
      by_cases he' : e.category = c'
      · have hcc : ¬ c = c' := fun hcc => he (hcc ▸ he')
        simp [catIncomeOf, List.find?_cons, he', hcc]
      · simp only [catIncomeOf, List.find?_cons, he', decide_False]
        simpa [catIncomeOf] using ih

theorem labelsFold_expenseOf (ls : List (List Char)) (m : List CategorySummary)
    (t : Transaction) (c : List Char) :
    catExpenseOf (ls.foldl (fun m c => updateCat m c t) m) c
      = catExpenseOf m c + (ls.count c : ℚ) * expenseContribution t := by
  induction ls generalizing m with
  | nil => simp
  | cons l ls ih =>
    rw [List.foldl_cons, ih, updateCat_expenseOf]
    rw [List.count_cons]
    by_cases hl : l = c
    · simp only [if_pos hl, hl, beq_self_eq_true, if_pos]
      push_cast
      ring
    · have : ¬ (l == c) = true := by simpa using hl
      simp only [if_neg hl, this, if_false]
      push_cast
      ring

theorem labelsFold_incomeOf (ls : List (List Char)) (m : List CategorySummary)
    (t : Transaction) (c : List Char) :
    catIncomeOf (ls.foldl (fun m c => updateCat m c t) m) c
      = catIncomeOf m c + (ls.count c : ℚ) * incomeContribution t := by
  induction ls generalizing m with
  | nil => simp
  | cons l ls ih =>
    rw [List.foldl_cons, ih, updateCat_incomeOf]
    rw [List.count_cons]
    by_cases hl : l = c
    · simp only [if_pos hl, hl, beq_self_eq_true, if_pos]
      push_cast
      ring
    · have : ¬ (l == c) = true := by simpa using hl
      simp only [if_neg hl, this, if_false]
      push_cast
      ring

theorem txFold_expenseOf (ts : List Transaction) (m : List CategorySummary) (c : List Char) :
    catExpenseOf
        (ts.foldl (fun m t => (categoryLabels t).foldl (fun m c => updateCat m c t) m) m) c
      = catExpenseOf m c
        + (ts.map (fun t => ((categoryLabels t).count c : ℚ) * expenseContribution t)).sum := by
  induction ts generalizing m with
  | nil => simp
  | cons t ts ih =>
    rw [List.foldl_cons, ih, labelsFold_expenseOf]
    simp
    ring

theorem txFold_incomeOf (ts : List Transaction) (m : List CategorySummary) (c : List Char) :
    catIncomeOf
        (ts.foldl (fun m t => (categoryLabels t).foldl (fun m c => updateCat m c t) m) m) c
      = catIncomeOf m c
        + (ts.map (fun t => ((categoryLabels t).count c : ℚ) * incomeContribution t)).sum := by
  induction ts generalizing m with
  | nil => simp
  | cons t ts ih =>
    rw [List.foldl_cons, ih, labelsFold_incomeOf]
    simp
    ring

theorem updateCat_keys (m : List CategorySummary) (c : List Char) (t : Transaction) :
    (updateCat m c t).map (·.category)
      = if c ∈ m.map (·.category) then m.map (·.category) else m.map (·.category) ++ [c] := by
  induction m with
  | nil => simp [updateCat, addToCat_category]
  | cons e es ih =>
    by_cases he : e.category = c
    · simp [updateCat, he, addToCat_category]
    · have : ¬ c = e.category := fun h => he h.symm
      simp only [updateCat, if_neg he, List.map_cons, List.mem_cons, this, false_or]
      rw [ih]
      split <;> simp

theorem updateCat_keys_nodup (m : List CategorySummary) (c : List Char) (t : Transaction)
    (h : (m.map (·.category)).Nodup) : ((updateCat m c t).map (·.category)).Nodup := by
  rw [updateCat_keys]
  split
  · exact h
  · next hnotin => simp [List.nodup_append, h, hnotin]

theorem labelsFold_keys_nodup (ls : List (List Char)) (m : List CategorySummary)
    (t : Transaction) (h : (m.map (·.category)).Nodup) :
    ((ls.foldl (fun m c => updateCat m c t) m).map (·.category)).Nodup := by
  induction ls generalizing m with
  | nil => exact h
  | cons l ls ih => exact ih _ (updateCat_keys_nodup _ _ _ h)

theorem txFold_keys_nodup (ts : List Transaction) (m : List CategorySummary)
    (h : (m.map (·.category)).Nodup) :
    ((ts.foldl (fun m t => (categoryLabels t).foldl (fun m c => updateCat m c t) m) m).map
      (·.category)).Nodup := by
  induction ts generalizing m with
  | nil => exact h
  | cons t ts ih => exact ih _ (labelsFold_keys_nodup _ _ _ h)

/-- `find?` by key is permutation-invariant when keys are unique. -/
theorem find?_eq_of_perm_nodupkeys (l₁ l₂ : List CategorySummary) (h : l₁.Perm l₂)
    (hnd : (l₁.map (·.category)).Nodup) (c : List Char) :
    l₁.find? (fun e => e.category = c) = l₂.find? (fun e => e.category = c) := by
  cases hf1 : l₁.find? (fun e => e.category = c) with
  | none =>
    have hall := List.find?_eq_none.mp hf1
    exact (List.find?_eq_none.mpr (fun x hx => hall x (h.mem_iff.mpr hx))).symm
  | some e =>
    have hpe := List.find?_some hf1
    have hmem : e ∈ l₁ := List.mem_of_find?_eq_some hf1
    cases hf2 : l₂.find? (fun e => e.category = c) with
    | none =>
      exact absurd hpe (List.find?_eq_none.mp hf2 e (h.mem_iff.mp hmem))
    | some e' =>
      have hpe' := List.find?_some hf2
      have hmem' : e' ∈ l₁ := h.mem_iff.mpr (List.mem_of_find?_eq_some hf2)
      have hinj := List.inj_on_of_nodup_map hnd
      have hee : e' = e := by
        apply hinj hmem' hmem
        simp only [decide_eq_true_eq] at hpe hpe'
        rw [hpe, hpe']
      rw [hee]

theorem aggregateCategories_expenseOf (ts : List Transaction) (c : List Char) :
    catExpenseOf (aggregateCategories ts) c
      = (ts.map (fun t => ((categoryLabels t).count c : ℚ) * expenseContribution t)).sum := by
  unfold aggregateCategories
  set m := ts.foldl (fun m t => (categoryLabels t).foldl (fun m c => updateCat m c t) m)
    ([] : List CategorySummary) with hm
  have hperm := List.perm_insertionSort (fun a b => b.expense ≤ a.expense) m
  have hndm : (m.map (·.category)).Nodup := txFold_keys_nodup ts [] (by simp)
  have hnds : ((List.insertionSort (fun a b => b.expense ≤ a.expense) m).map
      (·.category)).Nodup := ((hperm.map (·.category)).nodup_iff).mpr hndm
  have hfind := find?_eq_of_perm_nodupkeys _ _ hperm hnds c
  unfold catExpenseOf
  rw [hfind]
  have := txFold_expenseOf ts [] c
  unfold catExpenseOf at this
  simpa using this

theorem aggregateCategories_incomeOf (ts : List Transaction) (c : List Char) :
    catIncomeOf (aggregateCategories ts) c
      = (ts.map (fun t => ((categoryLabels t).count c : ℚ) * incomeContribution t)).sum := by
  unfold aggregateCategories
  set m := ts.foldl (fun m t => (categoryLabels t).foldl (fun m c => updateCat m c t) m)
    ([] : List CategorySummary) with hm
  have hperm := List.perm_insertionSort (fun a b => b.expense ≤ a.expense) m
  have hndm : (m.map (·.category)).Nodup := txFold_keys_nodup ts [] (by simp)
  have hnds : ((List.insertionSort (fun a b => b.expense ≤ a.expense) m).map
      (·.category)).Nodup := ((hperm.map (·.category)).nodup_iff).mpr hndm
  have hfind := find?_eq_of_perm_nodupkeys _ _ hperm hnds c
  unfold catIncomeOf
  rw [hfind]
  have := txFold_incomeOf ts [] c
  unfold catIncomeOf at this
  simpa using this

/-- The spec's example transaction: a debit of 1000 categorized
`FOOD-GROCERY SHOPPING`. -/
def foodTx : Transaction :=
  { date := "2025-01-01".toList, description := "grocery run".toList, amount := -1000,
    type := TxType.debit, category := "FOOD-GROCERY SHOPPING".toList }

/-- C7: `aggregateCategories` splits each transaction's category on `-`
(falling back to `Other` when the split is empty) and adds the transaction's
full amount to every resulting label's income (credits) or expense (debits,
as absolute value) — each label total is the sum, over all transactions, of
the label's multiplicity in the split times the full contribution.  In
particular a debit of 1000 with category `FOOD-GROCERY SHOPPING` contributes
1000 to both the `FOOD` and the `GROCERY SHOPPING` expense totals. -/
theorem claim_C7 :
    (∀ (ts : List Transaction) (c : List Char),
        catExpenseOf (aggregateCategories ts) c
          = (ts.map (fun t => ((categoryLabels t).count c : ℚ) * expenseContribution t)).sum
        ∧ catIncomeOf (aggregateCategories ts) c
          = (ts.map (fun t => ((categoryLabels t).count c : ℚ) * incomeContribution t)).sum)
    ∧ catExpenseOf (aggregateCategories [foodTx]) ("FOOD".toList) = 1000
    ∧ catExpenseOf (aggregateCategories [foodTx]) ("GROCERY SHOPPING".toList) = 1000 := by
  refine ⟨fun ts c => ⟨aggregateCategories_expenseOf ts c, aggregateCategories_incomeOf ts c⟩,
    ?_, ?_⟩
  · rw [aggregateCategories_expenseOf]
    simp only [List.map_cons, List.map_nil, List.sum_cons, List.sum_nil]
    rw [show (categoryLabels foodTx).count ("FOOD".toList) = 1 from by decide]
    have hc : expenseContribution foodTx = 1000 := by
      unfold expenseContribution foodTx
      rw [if_neg (by decide)]
      norm_num
    rw [hc]
    norm_num
  · rw [aggregateCategories_expenseOf]
    simp only [List.map_cons, List.map_nil, List.sum_cons, List.sum_nil]
    rw [show (categoryLabels foodTx).count ("GROCERY SHOPPING".toList) = 1 from by decide]
    have hc : expenseContribution foodTx = 1000 := by
      unfold expenseContribution foodTx
      rw [if_neg (by decide)]
      norm_num
    rw [hc]
    norm_num

/-- C7 — witness: the expense characterization applied at the example
transaction and label. -/
theorem claim_C7_witness :
    catExpenseOf (aggregateCategories [foodTx]) ("FOOD".toList)
      = (([foodTx]).map
          (fun t => ((categoryLabels t).count ("FOOD".toList) : ℚ) * expenseContribution t)).sum :=
  (claim_C7.1 [foodTx] ("FOOD".toList)).1

/-! ## Insertion-ordered multimaps (JavaScript `Map` with list values) -/

/-- `if (!m.has(k)) m.set(k, []); m.get(k).push(v);` on an insertion-ordered
association list. -/
def pushAssoc {α : Type} (m : List (List Char × List α)) (k : List Char) (v : α) :
    List (List Char × List α) :=
  match m with
  | [] => [(k, [v])]
  | e :: es => if e.1 = k then (e.1, e.2 ++ [v]) :: es else e :: pushAssoc es k v

/-- `m.get(k)` on an association list. -/
def lookupAssoc {α : Type} (m : List (List Char × List α)) (k : List Char) : Option (List α) :=
  (m.find? (fun e => e.1 = k)).map Prod.snd

theorem pushAssoc_lookup {α : Type} (m : List (List Char × List α)) (k : List Char) (v : α)
    (k' : List Char) :
    lookupAssoc (pushAssoc m k v) k'
      = if k' = k then some ((lookupAssoc m k').getD [] ++ [v]) else lookupAssoc m k' := by
  induction m with
  | nil =>
    by_cases hk : k' = k
    · subst hk; simp [pushAssoc, lookupAssoc, List.find?]
    · have hk2 : ¬ k = k' := fun h => hk h.symm
      simp [pushAssoc, lookupAssoc, List.find?, hk, hk2]
  | cons e es ih =>
    by_cases he : e.1 = k
    · simp only [pushAssoc, if_pos he]
      by_cases hk : k' = k
      · subst hk
        simp [lookupAssoc, List.find?_cons, he]
      · have hne : ¬ e.1 = k' := fun h => hk (h.symm.trans he)
        simp [lookupAssoc, List.find?_cons, hne, hk]
    · simp only [pushAssoc, if_neg he]
      by_cases he' : e.1 = k'
      · have hkk : ¬ k' = k := fun h => he (he'.trans h)
        simp [lookupAssoc, List.find?_cons, he', hkk]
      · simp only [lookupAssoc, List.find?_cons, he', decide_False]
        simpa [lookupAssoc] using ih

theorem pushAssoc_keys {α : Type} (m : List (List Char × List α)) (k : List Char) (v : α) :
    (pushAssoc m k v).map Prod.fst
      = if k ∈ m.map Prod.fst then m.map Prod.fst else m.map Prod.fst ++ [k] := by
  induction m with
  | nil => simp [pushAssoc]
  | cons e es ih =>
    by_cases he : e.1 = k
    · simp [pushAssoc, he]
    · have : ¬ k = e.1 := fun h => he h.symm
      simp only [pushAssoc, if_neg he, List.map_cons, List.mem_cons, this, false_or]
      rw [ih]
      split <;> simp

theorem pushAssoc_keys_nodup {α : Type} (m : List (List Char × List α)) (k : List Char)
    (v : α) (h : (m.map Prod.fst).Nodup) : ((pushAssoc m k v).map Prod.fst).Nodup := by
  rw [pushAssoc_keys]
  split
  · exact h
  · next hnotin => simp [List.nodup_append, h, hnotin]

/-! ## detectRecurring (domain/analytics/recurring.ts) -/

/-- Replace every non-`[a-z0-9\s]` character (after lowercasing) by a
space. -/
def toAlnumSpace (c : Char) : Char :=
  if ('a' ≤ c ∧ c ≤ 'z') ∨ c.isDigit ∨ c.isWhitespace then c else ' '

/-- Collapse every whitespace run to a single space (`.replace(/\s+/g, ' ')`),
with fuel for structural recursion (the input length always suffices). -/
def collapseWsCore : ℕ → List Char → List Char
  | 0, _ => []
  | _ + 1, [] => []
  | f + 1, c :: cs =>
    if c.isWhitespace then ' ' :: collapseWsCore f (cs.dropWhile Char.isWhitespace)
    else c :: collapseWsCore f cs

def collapseWs (cs : List Char) : List Char := collapseWsCore cs.length cs

/-- `normalizeDescription`: lowercase, non-alphanumerics to spaces, collapse
whitespace runs, trim. -/
def normalizeDescription (desc : List Char) : List Char :=
  trimChars (collapseWs ((toLowerChars desc).map toAlnumSpace))

/-- Group the transactions by normalized description, in first-occurrence
order, appending within each group (`Map<string, Transaction[]>`). -/
def groupByNorm (ts : List Transaction) : List (List Char × List Transaction) :=
  ts.foldl (fun m t => pushAssoc m (normalizeDescription t.description) t) []

/-- Days since the Unix epoch of a civil date (1-based month); the classic
era-based civil-calendar day count, matching ECMASCript `MakeDay`. -/
def daysFromCivil (y : ℤ) (m d : ℕ) : ℤ :=
  let y' := if m ≤ 2 then y - 1 else y
  let era := (if 0 ≤ y' then y' else y' - 399).tdiv 400
  let yoe := y' - era * 400
  let mp : ℤ := if 2 < m then (m : ℤ) - 3 else (m : ℤ) + 9
  let doy := (153 * mp + 2).tdiv 5 + (d : ℤ) - 1
  let doe := yoe * 365 + yoe.tdiv 4 - yoe.tdiv 100 + doy
  era * 146097 + doe - 719468

/-- `new Date(s).getTime() / 86400000` for a canonical `YYYY-MM-DD` ledger
date: whole days since the epoch; `none` models `NaN` (the host also parses
other formats, but ledger dates are canonical and non-canonical strings are
modelled as unparseable). -/
def dateEpochDays (cs : List Char) : Option ℤ :=
  match matchP1 cs with
  | some (y, mo, d) =>
    if 1 ≤ mo ∧ mo ≤ 12 ∧ 1 ≤ d ∧ d ≤ daysInMonth (y : ℤ) (mo - 1) then
      some (daysFromCivil (y : ℤ) mo d)
    else none
  | none => none

/-- The day gaps between chronologically consecutive occurrences, keeping
only positive gaps (a `NaN` difference from an unparseable date compares
false and is dropped, as in `if (diff > 0)`). -/
def consecutiveDiffs : List Transaction → List ℚ
  | a :: b :: rest =>
    (match dateEpochDays a.date, dateEpochDays b.date with
      | some x, some y => if 0 < y - x then [((y - x : ℤ) : ℚ)] else []
      | _, _ => []) ++ consecutiveDiffs (b :: rest)
  | _ => []

/-- Arithmetic mean of a list of rationals. -/
def qMean (l : List ℚ) : ℚ := l.sum / l.length

/-- Population variance of a list of rationals. -/
def qVariance (l : List ℚ) : ℚ := (l.map (fun v => (v - qMean l) ^ 2)).sum / l.length

/-- The acceptance test `cov < 0.5` where
`cov = avg > 0 ? std / avg : Infinity` and `std = sqrt(variance)`: stated
without the square root as `4 * variance < avg²`, which is exactly
equivalent for `avg > 0` since squaring is strictly monotone on
nonnegatives (see `covOK_iff_real`). -/
def covOK (l : List ℚ) : Bool :=
  if 0 < qMean l then decide (4 * qVariance l < qMean l * qMean l) else false

/-- `Math.round(q * 10) / 10` (ties toward positive infinity). -/
def roundTenth (q : ℚ) : ℚ := (⌊q * 10 + 1 / 2⌋ : ℚ) / 10

/-- A detected recurring pattern (`RecurringPattern` of recurring.ts; for
accepted groups `avgIntervalDays` is always the rounded mean, never null). -/
structure RecurringPattern where
  key : List Char
  count : ℕ
  avgIntervalDays : ℚ
  lastDate : List Char
deriving DecidableEq, Repr

/-- The sort `list.sort((a, b) => a.date.localeCompare(b.date))`. -/
def sortByDate (l : List Transaction) : List Transaction :=
  List.insertionSort (fun a b => lexLe a.date b.date = true) l

/-- One group's contribution to `detectRecurring`: `none` for groups of
fewer than 3, with no positive gap, or with an irregular cadence. -/
def groupPattern (k : List Char) (l : List Transaction) : Option RecurringPattern :=
  if l.length < 3 then none
  else
    let sorted := sortByDate l
    let intervals := consecutiveDiffs sorted
    if intervals = [] then none
    else if covOK intervals then
      some ⟨k, l.length, roundTenth (qMean intervals),
        ((sorted.getLast?).map (·.date)).getD []⟩
    else none

/-- `detectRecurring`: the patterns of the accepted groups (in group order)
and the ids of their member transactions. -/
def detectRecurring (ts : List Transaction) : List RecurringPattern × List ℕ :=
  let groups := groupByNorm ts
  (groups.filterMap (fun e => groupPattern e.1 e.2),
   (groups.filterMap (fun e => if (groupPattern e.1 e.2).isSome then some e.2 else none)).flatten.filterMap
     (·.id))

theorem groupPattern_some (k : List Char) (l : List Transaction) (p : RecurringPattern)
    (h : groupPattern k l = some p) : p.key = k ∧ p.count = l.length := by
  unfold groupPattern at h
  split at h
  · exact absurd h (by simp)
  dsimp only at h
  split at h
  · exact absurd h (by simp)
  split at h
  · injection h with h'
    subst h'
    exact ⟨rfl, rfl⟩
  · exact absurd h (by simp)

theorem foldl_pushAssoc_keys_nodup {α β : Type} (f : β → List Char) (g : β → α)
    (ts : List β) (m : List (List Char × List α)) (h : (m.map Prod.fst).Nodup) :
    ((ts.foldl (fun m t => pushAssoc m (f t) (g t)) m).map Prod.fst).Nodup := by
  induction ts generalizing m with
  | nil => exact h
  | cons t ts ih => exact ih _ (pushAssoc_keys_nodup _ _ _ h)

theorem groupByNorm_keys_nodup (ts : List Transaction) :
    ((groupByNorm ts).map Prod.fst).Nodup :=
  foldl_pushAssoc_keys_nodup _ _ ts [] (by simp)

theorem patterns_key_mem (groups : List (List Char × List Transaction)) (p : RecurringPattern)
    (h : p ∈ groups.filterMap (fun e => groupPattern e.1 e.2)) :
    p.key ∈ groups.map Prod.fst := by
  rcases List.mem_filterMap.mp h with ⟨e, he, hp⟩
  rw [(groupPattern_some _ _ _ hp).1]
  exact List.mem_map.mpr ⟨e, he, rfl⟩

theorem patterns_filter_key (groups : List (List Char × List Transaction)) (k : List Char)
    (l : List Transaction) (hmem : (k, l) ∈ groups) (hnd : (groups.map Prod.fst).Nodup) :
    ((groups.filterMap (fun e => groupPattern e.1 e.2)).filter (fun p => p.key = k)).length
      = if (groupPattern k l).isSome then 1 else 0 := by
  induction groups with
  | nil => simp at hmem
  | cons e es ih =>
    have hnd' : (es.map Prod.fst).Nodup := (List.nodup_cons.mp hnd).2
    have hknotin : e.1 ∉ es.map Prod.fst := (List.nodup_cons.mp hnd).1
    rcases List.mem_cons.mp hmem with rfl | hmem'
    · have hzero :
          ((es.filterMap (fun e => groupPattern e.1 e.2)).filter (fun p => p.key = k)).length
            = 0 := by
        rw [List.length_eq_zero]
        rw [List.filter_eq_nil_iff]
        intro p hp
        have := patterns_key_mem es p hp
        simp only [decide_eq_true_eq]
        intro hpk
        exact hknotin (hpk ▸ this)
      simp only [List.filterMap_cons]
      cases hp : groupPattern k l with
      | none => simpa [hp] using hzero
      | some p =>
        have hk := (groupPattern_some _ _ _ hp).1
        simp [hp, List.filter_cons, hk, hzero]
    · have hkne : e.1 ≠ k := by
        intro hcon
        apply hknotin
        rw [hcon]
        exact List.mem_map.mpr ⟨(k, l), hmem', rfl⟩
      simp only [List.filterMap_cons]
      cases hp : groupPattern e.1 e.2 with
      | none => exact ih hmem' hnd'
      | some p =>
        have hk := (groupPattern_some _ _ _ hp).1
        have : ¬ p.key = k := by rw [hk]; exact hkne
        simp only [List.filter_cons, this, decide_False, if_false]
        exact ih hmem' hnd'

theorem qVariance_nonneg (l : List ℚ) : 0 ≤ qVariance l := by
  unfold qVariance
  apply div_nonneg
  · apply List.sum_nonneg
    intro x hx
    rcases List.mem_map.mp hx with ⟨v, _, rfl⟩
    positivity
  · positivity

/-- The sqrt-free acceptance test is exactly `std/avg < 0.5` over the reals. -/
theorem covOK_iff_real (l : List ℚ) :
    covOK l = true
      ↔ 0 < qMean l ∧ Real.sqrt ((qVariance l : ℝ)) / ((qMean l : ℝ)) < 1 / 2 := by
  unfold covOK
  by_cases hm : 0 < qMean l
  · rw [if_pos hm]
    simp only [decide_eq_true_eq]
    have hmR : (0 : ℝ) < (qMean l : ℝ) := by exact_mod_cast hm
    constructor
    · intro h4
      refine ⟨hm, ?_⟩
      rw [div_lt_iff₀ hmR]
      have hlt : ((qVariance l : ℝ)) < (1 / 2 * (qMean l : ℝ)) ^ 2 := by
        have h4R : (4 : ℝ) * (qVariance l : ℝ) < (qMean l : ℝ) * (qMean l : ℝ) := by
          exact_mod_cast h4
        nlinarith
      exact (Real.sqrt_lt' (by positivity)).mpr hlt
    · rintro ⟨-, h⟩
      rw [div_lt_iff₀ hmR] at h
      have hpos : (0 : ℝ) < 1 / 2 * (qMean l : ℝ) := by positivity
      have hlt := (Real.sqrt_lt' hpos).mp h
      have h4R : (4 : ℝ) * (qVariance l : ℝ) < (qMean l : ℝ) * (qMean l : ℝ) := by nlinarith
      exact_mod_cast h4R
  · rw [if_neg hm]
    simp [hm]

/-- C8: a normalized-description group yields a recurring pattern iff it has
at least 3 members, at least one positive day gap between its
chronologically sorted occurrences, and a coefficient of variation
(population std over mean of the gaps) below 0.5; an accepted group yields
exactly one pattern, whose `count` is the group size; a group of fewer than
3 never yields one.  The last conjunct states the sqrt-free acceptance test
is exactly `std/mean < 0.5` over the reals. -/
theorem claim_C8 :
    (∀ (ts : List Transaction) (k : List Char) (l : List Transaction),
        (k, l) ∈ groupByNorm ts →
        (((detectRecurring ts).1.filter (fun p => p.key = k)).length
            = if (groupPattern k l).isSome then 1 else 0)
        ∧ ((groupPattern k l).isSome
            ↔ 3 ≤ l.length ∧ consecutiveDiffs (sortByDate l) ≠ []
              ∧ covOK (consecutiveDiffs (sortByDate l)) = true)
        ∧ (∀ p ∈ (detectRecurring ts).1, p.key = k → p.count = l.length)
        ∧ (l.length < 3 → ∀ p ∈ (detectRecurring ts).1, p.key ≠ k))
    ∧ (∀ l : List ℚ, covOK l = true
        ↔ 0 < qMean l ∧ Real.sqrt ((qVariance l : ℝ)) / ((qMean l : ℝ)) < 1 / 2) := by
  refine ⟨?_, covOK_iff_real⟩
  intro ts k l hmem
  have hnd := groupByNorm_keys_nodup ts
  have hinj := List.inj_on_of_nodup_map hnd
  have hcount : ∀ p ∈ (detectRecurring ts).1, p.key = k → p.count = l.length := by
    intro p hp hkey
    simp only [detectRecurring] at hp
    rcases List.mem_filterMap.mp hp with ⟨e, he, hpe⟩
    have hek : e.1 = k := ((groupPattern_some _ _ _ hpe).1).symm.trans hkey
    have hel : e = (k, l) := hinj he hmem hek
    rw [hel] at hpe
    exact (groupPattern_some _ _ _ hpe).2
  refine ⟨patterns_filter_key _ _ _ hmem hnd, ?_, hcount, ?_⟩
  · unfold groupPattern
    by_cases h3 : l.length < 3
    · rw [if_pos h3]
      constructor
      · intro hcon
        exact absurd hcon (by simp)
      · rintro ⟨hlen, -, -⟩
        omega
    · rw [if_neg h3]
      dsimp only
      by_cases hint : consecutiveDiffs (sortByDate l) = []
      · rw [if_pos hint]
        constructor
        · intro hcon
          exact absurd hcon (by simp)
        · rintro ⟨-, hcon, -⟩
          exact absurd hint hcon
      · rw [if_neg hint]
        by_cases hcov : covOK (consecutiveDiffs (sortByDate l)) = true
        · rw [if_pos hcov]
          simp only [Option.isSome_some, true_iff]
          exact ⟨by omega, hint, hcov⟩
        · rw [if_neg hcov]
          constructor
          · intro hcon
            exact absurd hcon (by simp)
          · rintro ⟨-, -, hcon⟩
            exact absurd hcon hcov
  · intro h3 p hp hkey
    simp only [detectRecurring] at hp
    rcases List.mem_filterMap.mp hp with ⟨e, he, hpe⟩
    have hek : e.1 = k := ((groupPattern_some _ _ _ hpe).1).symm.trans hkey
    have hel : e = (k, l) := hinj he hmem hek
    rw [hel] at hpe
    unfold groupPattern at hpe
    rw [if_pos h3] at hpe
    exact Option.noConfusion hpe

/-- A monthly subscription occurrence used as witness. -/
def recTx (d : List Char) : Transaction :=
  { date := d, description := "Netflix Subscription".toList, amount := -500,
    type := TxType.debit, category := "Other".toList }

/-- Three monthly occurrences of the same normalized description. -/
def recTxs : List Transaction :=
  [recTx ("2025-01-01".toList), recTx ("2025-02-01".toList), recTx ("2025-03-01".toList)]

/-- C8 — witness: the three occurrences form one group, and the pattern
count over that group's key is exactly `1` iff the group is accepted. -/
theorem claim_C8_witness :
    ((detectRecurring recTxs).1.filter
        (fun p => p.key = ("netflix subscription".toList))).length
      = if (groupPattern ("netflix subscription".toList) recTxs).isSome then 1 else 0 :=
  (claim_C8.1 recTxs ("netflix subscription".toList) recTxs (by decide)).1

/-! ## detectAnomalies (per-category z-score outliers)

The source carries `std = sqrt(variance)` and `zScore = (value - mean)/std`.
Square roots are irrational, so the embedding carries the pair
`(devFromMean, variance)` instead and states every use of the z-score in an
exactly equivalent square-root-free form: `zGe dev var t` is `z ≥ t`
(`zGe_iff_real`), and ordering by `zProxy` is ordering by `z`
(`zProxy_le_iff_real`). -/

inductive Severity
  | moderate
  | severe
deriving DecidableEq, Repr

/-- `AnomalyResult` of types.ts with the z-score in sqrt-free form:
`zScore = devFromMean / sqrt variance`. -/
structure AnomalyResult where
  transactionId : Option ℕ
  date : List Char
  description : List Char
  amount : ℚ
  category : List Char
  devFromMean : ℚ
  variance : ℚ
  severity : Severity
deriving DecidableEq, Repr

/-- `computeStats`: `none` under 5 samples or at zero variance (`std === 0`
iff `variance = 0`); carries `(mean, variance)`, the source's `std` being
`sqrt variance`. -/
def computeStats (values : List ℚ) : Option (ℚ × ℚ) :=
  if values.length < 5 then none
  else if qVariance values = 0 then none
  else some (qMean values, qVariance values)

/-- `z ≥ t` for `z = dev / sqrt var` (`var > 0`), stated without the square
root; see `zGe_iff_real`. -/
def zGe (dev var t : ℚ) : Bool :=
  if 0 ≤ dev then decide (t ≤ 0) || decide (t * t * var ≤ dev * dev)
  else decide (t < 0) && decide (dev * dev ≤ t * t * var)

/-- The per-category absolute expense values, in insertion order
(`Map<string, number[]>`, `t.amount < 0` only). -/
def categoryValues (ts : List Transaction) : List (List Char × List ℚ) :=
  ts.foldl (fun m t => if t.amount < 0 then pushAssoc m t.category |t.amount| else m) []

/-- The per-category stats passing both guards. -/
def categoryStats (ts : List Transaction) : List (List Char × (ℚ × ℚ)) :=
  (categoryValues ts).filterMap (fun e => (computeStats e.2).map (fun s => (e.1, s)))

/-- The flag decision for one transaction: expenses only, category stats
required, `z ≥ moderate` to flag, `z ≥ severe` for the severity tag. -/
def anomalyOf (stats : List (List Char × (ℚ × ℚ))) (tM tS : ℚ) (t : Transaction) :
    Option AnomalyResult :=
  if t.amount < 0 then
    match (stats.find? (fun e => e.1 = t.category)).map Prod.snd with
    | none => none
    | some s =>
      let dev := |t.amount| - s.1
      if zGe dev s.2 tM then
        some { transactionId := t.id, date := t.date, description := t.description,
               amount := t.amount, category := t.category, devFromMean := dev,
               variance := s.2,
               severity := if zGe dev s.2 tS then Severity.severe else Severity.moderate }
      else none
  else none

/-- The sort key `(a, b) => b.zScore - a.zScore`: `sign(dev) * dev² / var`
orders exactly like `dev / sqrt var` (`zProxy_le_iff_real`). -/
def zProxy (a : AnomalyResult) : ℚ :=
  if 0 ≤ a.devFromMean then a.devFromMean ^ 2 / a.variance
  else -(a.devFromMean ^ 2 / a.variance)

/-- Descending z-score order. -/
def zRank (a b : AnomalyResult) : Prop := zProxy b ≤ zProxy a

instance : DecidableRel zRank := fun a b => by unfold zRank; infer_instance

instance : IsTotal AnomalyResult zRank := ⟨fun a b => le_total (zProxy b) (zProxy a)⟩

instance : IsTrans AnomalyResult zRank := ⟨fun _ _ _ h1 h2 => le_trans h2 h1⟩

/-- `detectAnomalies` with thresholds (defaults 2.0 and 3.0): flag qualifying
expense transactions and sort by descending z-score. -/
def detectAnomalies (ts : List Transaction) (tM tS : ℚ) : List AnomalyResult :=
  List.insertionSort zRank (ts.filterMap (anomalyOf (categoryStats ts) tM tS))

/-- The expense observations of category `c`: the absolute amounts of the
debit (negative) transactions in that category, in ledger order. -/
def expenseObs (ts : List Transaction) (c : List Char) : List ℚ :=
  (ts.filter (fun t => decide (t.amount < 0) && decide (t.category = c))).map
    (fun t => |t.amount|)

theorem categoryValues_fold_lookup (ts : List Transaction)
    (m : List (List Char × List ℚ)) (c : List Char) :
    lookupAssoc
        (ts.foldl (fun m t => if t.amount < 0 then pushAssoc m t.category |t.amount| else m) m) c
      = if expenseObs ts c = [] then lookupAssoc m c
        else some ((lookupAssoc m c).getD [] ++ expenseObs ts c) := by
  induction ts generalizing m with
  | nil => simp [expenseObs]
  | cons t ts ih =>
    rw [List.foldl_cons]
    by_cases hneg : t.amount < 0
    · rw [if_pos hneg]
      by_cases hcat : t.category = c
      · have hobs : expenseObs (t :: ts) c = |t.amount| :: expenseObs ts c := by
          simp [expenseObs, List.filter_cons, hneg, hcat]
        rw [ih, hobs]
        rw [hcat] at *
        rw [pushAssoc_lookup]
        rw [if_pos rfl]
        by_cases hrest : expenseObs ts c = []
        · simp [hrest]
        · simp [hrest]
      · have hobs : expenseObs (t :: ts) c = expenseObs ts c := by
          simp [expenseObs, List.filter_cons, hcat]
        have hpl : lookupAssoc (pushAssoc m t.category |t.amount|) c = lookupAssoc m c := by
          rw [pushAssoc_lookup, if_neg (fun h => hcat h.symm)]
        rw [ih, hobs, hpl]
    · rw [if_neg hneg]
      have hobs : expenseObs (t :: ts) c = expenseObs ts c := by
        simp [expenseObs, List.filter_cons, hneg]
      rw [ih, hobs]

theorem categoryValues_lookup (ts : List Transaction) (c : List Char) :
    lookupAssoc (categoryValues ts) c
      = if expenseObs ts c = [] then none else some (expenseObs ts c) := by
  unfold categoryValues
  rw [categoryValues_fold_lookup]
  split <;> simp [lookupAssoc]

theorem categoryValues_keys_nodup (ts : List Transaction) :
    ((categoryValues ts).map Prod.fst).Nodup := by
  unfold categoryValues
  suffices h : ∀ m : List (List Char × List ℚ), (m.map Prod.fst).Nodup →
      ((ts.foldl (fun m t => if t.amount < 0 then pushAssoc m t.category |t.amount| else m)
        m).map Prod.fst).Nodup by
    exact h [] (by simp)
  induction ts with
  | nil => intro m hm; exact hm
  | cons t ts ih =>
    intro m hm
    rw [List.foldl_cons]
    by_cases hneg : t.amount < 0
    · rw [if_pos hneg]
      exact ih _ (pushAssoc_keys_nodup _ _ _ hm)
    · rw [if_neg hneg]
      exact ih _ hm

theorem computeStats_some (v : List ℚ) (s : ℚ × ℚ) (h : computeStats v = some s) :
    5 ≤ v.length ∧ s.1 = qMean v ∧ s.2 = qVariance v ∧ s.2 ≠ 0 := by
  unfold computeStats at h
  split at h
  · exact absurd h (by simp)
  split at h
  · exact absurd h (by simp)
  · injection h with h'
    subst h'
    refine ⟨by omega, rfl, rfl, by assumption⟩

theorem statsFilterMap_keys {x : List Char × (ℚ × ℚ)} (vals : List (List Char × List ℚ))
    (h : x ∈ vals.filterMap (fun e => (computeStats e.2).map (fun s => (e.1, s)))) :
    x.1 ∈ vals.map Prod.fst := by
  rcases List.mem_filterMap.mp h with ⟨e, he, hx⟩
  cases hcs : computeStats e.2 with
  | none => rw [hcs] at hx; exact absurd hx (by simp)
  | some s =>
    rw [hcs] at hx
    simp only [Option.map_some', Option.some.injEq] at hx
    rw [← hx]
    exact List.mem_map.mpr ⟨e, he, rfl⟩

theorem categoryStats_find (vals : List (List Char × List ℚ))
    (hnd : (vals.map Prod.fst).Nodup) (c : List Char) :
    ((vals.filterMap (fun e => (computeStats e.2).map (fun s => (e.1, s)))).find?
        (fun e => e.1 = c)).map Prod.snd
      = (lookupAssoc vals c).bind computeStats := by
  induction vals with
  | nil => rfl
  | cons e es ih =>
    have hnotin : e.1 ∉ es.map Prod.fst := (List.nodup_cons.mp hnd).1
    have hnd' : (es.map Prod.fst).Nodup := (List.nodup_cons.mp hnd).2
    by_cases hec : e.1 = c
    · cases hcs : computeStats e.2 with
      | some s =>
        have hf : (fun e : List Char × List ℚ =>
            (computeStats e.2).map (fun s => (e.1, s))) e = some (e.1, s) := by
          show (computeStats e.2).map (fun s => (e.1, s)) = some (e.1, s)
          rw [hcs]
          rfl
        rw [@List.filterMap_cons_some _ _ (fun e : List Char × List ℚ =>
            (computeStats e.2).map (fun s => (e.1, s))) e es (e.1, s) hf]
        simp [lookupAssoc, List.find?_cons, hec, hcs]
      | none =>
        have hf : (fun e : List Char × List ℚ =>
            (computeStats e.2).map (fun s => (e.1, s))) e = none := by
          show (computeStats e.2).map (fun s => (e.1, s)) = none
          rw [hcs]
          rfl
        have hrest : (es.filterMap
            (fun e => (computeStats e.2).map (fun s => (e.1, s)))).find?
              (fun e => e.1 = c) = none := by
          rw [List.find?_eq_none]
          intro x hx
          simp only [decide_eq_true_eq]
          intro hxc
          exact hnotin (hec ▸ hxc ▸ statsFilterMap_keys es hx)
        rw [@List.filterMap_cons_none _ _ (fun e : List Char × List ℚ =>
            (computeStats e.2).map (fun s => (e.1, s))) e es hf]
        simp [lookupAssoc, List.find?_cons, hec, hcs, hrest]
    · cases hcs : computeStats e.2 with
      | some s =>
        have hf : (fun e : List Char × List ℚ =>
            (computeStats e.2).map (fun s => (e.1, s))) e = some (e.1, s) := by
          show (computeStats e.2).map (fun s => (e.1, s)) = some (e.1, s)
          rw [hcs]
          rfl
        rw [@List.filterMap_cons_some _ _ (fun e : List Char × List ℚ =>
            (computeStats e.2).map (fun s => (e.1, s))) e es (e.1, s) hf]
        rw [List.find?_cons]
        rw [show (decide ((e.1, s).1 = c)) = false by simp [hec]]
        rw [ih hnd']
        simp [lookupAssoc, List.find?_cons, hec]
      | none =>
        have hf : (fun e : List Char × List ℚ =>
            (computeStats e.2).map (fun s => (e.1, s))) e = none := by
          show (computeStats e.2).map (fun s => (e.1, s)) = none
          rw [hcs]
          rfl
        rw [@List.filterMap_cons_none _ _ (fun e : List Char × List ℚ =>
            (computeStats e.2).map (fun s => (e.1, s))) e es hf]
        rw [ih hnd']
        simp [lookupAssoc, List.find?_cons, hec]

theorem categoryStats_lookup (ts : List Transaction) (c : List Char) :
    ((categoryStats ts).find? (fun e => e.1 = c)).map Prod.snd
      = (lookupAssoc (categoryValues ts) c).bind computeStats :=
  categoryStats_find _ (categoryValues_keys_nodup ts) c

theorem mulAbs_le_iff (x y : ℝ) : x * |x| ≤ y * |y| ↔ x ≤ y := by
  rcases le_or_lt 0 x with hx | hx <;> rcases le_or_lt 0 y with hy | hy
  · rw [abs_of_nonneg hx, abs_of_nonneg hy]
    constructor
    · intro h; nlinarith
    · intro h; nlinarith
  · rw [abs_of_nonneg hx, abs_of_neg hy]
    constructor
    · intro h; nlinarith
    · intro h; nlinarith
  · rw [abs_of_neg hx, abs_of_nonneg hy]
    constructor
    · intro h; nlinarith
    · intro h; nlinarith
  · rw [abs_of_neg hx, abs_of_neg hy]
    constructor
    · intro h; nlinarith
    · intro h; nlinarith

/-- The sqrt-free flag test is exactly `z ≥ t` for `z = dev / sqrt var`. -/
theorem zGe_iff_real (dev var t : ℚ) (hv : 0 < var) :
    zGe dev var t = true ↔ (t : ℝ) ≤ (dev : ℝ) / Real.sqrt ((var : ℚ) : ℝ) := by
  have hvR : (0 : ℝ) < ((var : ℚ) : ℝ) := by exact_mod_cast hv
  have hs : 0 < Real.sqrt ((var : ℚ) : ℝ) := Real.sqrt_pos.mpr hvR
  have hs2 : Real.sqrt ((var : ℚ) : ℝ) * Real.sqrt ((var : ℚ) : ℝ) = ((var : ℚ) : ℝ) :=
    Real.mul_self_sqrt hvR.le
  rw [le_div_iff₀ hs]
  unfold zGe
  by_cases hd : 0 ≤ dev
  · rw [if_pos hd]
    have hdR : (0 : ℝ) ≤ (dev : ℝ) := by exact_mod_cast hd
    simp only [Bool.or_eq_true, decide_eq_true_eq]
    constructor
    · rintro (ht | hq)
      · have htR : (t : ℝ) ≤ 0 := by exact_mod_cast ht
        nlinarith [mul_le_mul_of_nonneg_right htR hs.le]
      · have hqR : (t : ℝ) * (t : ℝ) * ((var : ℚ) : ℝ) ≤ (dev : ℝ) * (dev : ℝ) := by
          exact_mod_cast hq
        rcases le_or_lt (t : ℝ) 0 with ht | ht
        · nlinarith [mul_le_mul_of_nonneg_right ht hs.le]
        · nlinarith [mul_pos ht hs]
    · intro h
      by_cases ht : t ≤ 0
      · exact Or.inl ht
      · right
        push_neg at ht
        have htR : (0 : ℝ) < (t : ℝ) := by exact_mod_cast ht
        have hrq : (t : ℝ) * (t : ℝ) * ((var : ℚ) : ℝ) ≤ (dev : ℝ) * (dev : ℝ) := by
          nlinarith [mul_pos htR hs]
        exact_mod_cast hrq
  · rw [if_neg hd]
    push_neg at hd
    have hdR : (dev : ℝ) < 0 := by exact_mod_cast hd
    simp only [Bool.and_eq_true, decide_eq_true_eq]
    constructor
    · rintro ⟨ht, hq⟩
      have htR : (t : ℝ) < 0 := by exact_mod_cast ht
      have hqR : (dev : ℝ) * (dev : ℝ) ≤ (t : ℝ) * (t : ℝ) * ((var : ℚ) : ℝ) := by
        exact_mod_cast hq
      nlinarith [mul_pos (neg_pos.mpr htR) hs]
    · intro h
      have htR : (t : ℝ) < 0 := by
        by_contra hge
        push_neg at hge
        nlinarith [mul_le_mul_of_nonneg_right hge hs.le]
      refine ⟨by exact_mod_cast htR, ?_⟩
      have hrq : (dev : ℝ) * (dev : ℝ) ≤ (t : ℝ) * (t : ℝ) * ((var : ℚ) : ℝ) := by
        nlinarith [mul_pos (neg_pos.mpr htR) hs]
      exact_mod_cast hrq

theorem zProxy_cast (r : AnomalyResult) (hv : 0 < r.variance) :
    ((zProxy r : ℚ) : ℝ)
      = ((r.devFromMean : ℝ) / Real.sqrt ((r.variance : ℚ) : ℝ))
          * |(r.devFromMean : ℝ) / Real.sqrt ((r.variance : ℚ) : ℝ)| := by
  have hvR : (0 : ℝ) < ((r.variance : ℚ) : ℝ) := by exact_mod_cast hv
  have hs : 0 < Real.sqrt ((r.variance : ℚ) : ℝ) := Real.sqrt_pos.mpr hvR
  have hs2 : Real.sqrt ((r.variance : ℚ) : ℝ) * Real.sqrt ((r.variance : ℚ) : ℝ)
      = ((r.variance : ℚ) : ℝ) := Real.mul_self_sqrt hvR.le
  unfold zProxy
  by_cases hd : 0 ≤ r.devFromMean
  · rw [if_pos hd]
    have hdR : (0 : ℝ) ≤ (r.devFromMean : ℝ) := by exact_mod_cast hd
    have hz : 0 ≤ (r.devFromMean : ℝ) / Real.sqrt ((r.variance : ℚ) : ℝ) :=
      div_nonneg hdR hs.le
    rw [abs_of_nonneg hz]
    push_cast
    rw [div_mul_div_comm, hs2]
    ring
  · rw [if_neg hd]
    push_neg at hd
    have hdR : (r.devFromMean : ℝ) < 0 := by exact_mod_cast hd
    have hz : (r.devFromMean : ℝ) / Real.sqrt ((r.variance : ℚ) : ℝ) < 0 :=
      div_neg_of_neg_of_pos hdR hs
    rw [abs_of_neg hz]
    push_cast
    rw [mul_neg, div_mul_div_comm, hs2]
    ring

/-- The sqrt-free sort key orders exactly like the real z-score. -/
theorem zProxy_le_iff_real (a b : AnomalyResult)
    (ha : 0 < a.variance) (hb : 0 < b.variance) :
    zProxy a ≤ zProxy b
      ↔ (a.devFromMean : ℝ) / Real.sqrt ((a.variance : ℚ) : ℝ)
          ≤ (b.devFromMean : ℝ) / Real.sqrt ((b.variance : ℚ) : ℝ) := by
  rw [show (zProxy a ≤ zProxy b) ↔ ((zProxy a : ℚ) : ℝ) ≤ ((zProxy b : ℚ) : ℝ) from
    Iff.symm Rat.cast_le]
  rw [zProxy_cast a ha, zProxy_cast b hb]
  exact mulAbs_le_iff _ _

theorem qVariance_eq_zero_of_const (l : List ℚ)
    (h : ∀ x ∈ l, ∀ y ∈ l, x = y) : qVariance l = 0 := by
  rcases l with _ | ⟨a, l'⟩
  · simp [qVariance]
  · have hmean : qMean (a :: l') = a := by
      unfold qMean
      rw [List.sum_eq_card_nsmul (a :: l') a
        (fun x hx => h x hx a (List.mem_cons_self a l'))]
      rw [nsmul_eq_mul]
      exact mul_div_cancel_left₀ a (Nat.cast_ne_zero.mpr (by simp))
    unfold qVariance
    rw [List.sum_eq_zero, zero_div]
    intro x hx
    rcases List.mem_map.mp hx with ⟨v, hv, rfl⟩
    rw [hmean, h v hv a (List.mem_cons_self a l'), sub_self]
    ring

theorem anomalyOf_spec (ts : List Transaction) (tM tS : ℚ) (t : Transaction)
    (hneg : t.amount < 0) :
    (anomalyOf (categoryStats ts) tM tS t).isSome = true ↔
      5 ≤ (expenseObs ts t.category).length
      ∧ qVariance (expenseObs ts t.category) ≠ 0
      ∧ zGe (|t.amount| - qMean (expenseObs ts t.category))
          (qVariance (expenseObs ts t.category)) tM = true := by
  unfold anomalyOf
  rw [if_pos hneg, categoryStats_lookup, categoryValues_lookup]
  by_cases hobs : expenseObs ts t.category = []
  · rw [if_pos hobs]
    simp [hobs]
  · rw [if_neg hobs, Option.some_bind]
    unfold computeStats
    by_cases h5 : (expenseObs ts t.category).length < 5
    · rw [if_pos h5]
      simp only [Option.isSome_none, Bool.false_eq_true, false_iff, not_and]
      intro hlen
      omega
    · rw [if_neg h5]
      by_cases hv : qVariance (expenseObs ts t.category) = 0
      · rw [if_pos hv]
        simp [hv]
      · rw [if_neg hv]
        dsimp only
        by_cases hz : zGe (|t.amount| - qMean (expenseObs ts t.category))
            (qVariance (expenseObs ts t.category)) tM = true
        · rw [if_pos hz]
          simp only [Option.isSome_some, true_iff]
          exact ⟨by omega, hv, hz⟩
        · rw [if_neg hz]
          simp only [Option.isSome_none, Bool.false_eq_true, false_iff, not_and]
          intro _ _
          exact hz

theorem anomalyOf_some_spec (ts : List Transaction) (tM tS : ℚ) (t : Transaction)
    (a : AnomalyResult) (h : anomalyOf (categoryStats ts) tM tS t = some a) :
    t.amount < 0 ∧ a.amount = t.amount ∧ a.category = t.category
      ∧ a.transactionId = t.id
      ∧ a.devFromMean = |t.amount| - qMean (expenseObs ts t.category)
      ∧ a.variance = qVariance (expenseObs ts t.category)
      ∧ 0 < a.variance
      ∧ (a.severity = Severity.severe ↔ zGe a.devFromMean a.variance tS = true) := by
  unfold anomalyOf at h
  by_cases hneg : t.amount < 0
  · rw [if_pos hneg, categoryStats_lookup, categoryValues_lookup] at h
    by_cases hobs : expenseObs ts t.category = []
    · rw [if_pos hobs] at h
      exact absurd h (by simp)
    · rw [if_neg hobs, Option.some_bind] at h
      unfold computeStats at h
      by_cases h5 : (expenseObs ts t.category).length < 5
      · rw [if_pos h5] at h
        exact absurd h (by simp)
      · rw [if_neg h5] at h
        by_cases hv : qVariance (expenseObs ts t.category) = 0
        · rw [if_pos hv] at h
          exact absurd h (by simp)
        · rw [if_neg hv] at h
          dsimp only at h
          split at h
          · next hz =>
            injection h with h'
            subst h'
            refine ⟨hneg, rfl, rfl, rfl, rfl, rfl, ?_, ?_⟩
            · exact lt_of_le_of_ne (qVariance_nonneg _) (Ne.symm hv)
            · by_cases hzs : zGe (|t.amount| - qMean (expenseObs ts t.category))
                  (qVariance (expenseObs ts t.category)) tS = true
              · rw [if_pos hzs]
                simp only [true_iff]
                exact hzs
              · rw [if_neg hzs]
                simp only [iff_false]
                constructor
                · intro hcon
                  exact absurd hcon (by simp)
                · intro hcon
                  exact absurd hcon hzs
          · exact absurd h (by simp)
  · rw [if_neg hneg] at h
    exact absurd h (by simp)

/-- C9: `detectAnomalies` flags only expense (negative-amount) transactions;
its output is the flagged transactions sorted by descending z-score; a debit
transaction is flagged iff its category has at least 5 expense observations
whose absolute amounts have nonzero population variance and the z-score of
its absolute amount is at least the moderate threshold; a flagged result
carries the transaction's amount and id and is `severe` iff the z-score
reaches the severe threshold (its variance being positive); a category whose
expense values are all identical flags nothing; and the sqrt-free tests
`zGe`/`zProxy` mean exactly `z ≥ t` and the z-score order over the reals. -/
theorem claim_C9 :
    (∀ (ts : List Transaction) (tM tS : ℚ), ∀ a ∈ detectAnomalies ts tM tS, a.amount < 0)
  ∧ (∀ (ts : List Transaction) (tM tS : ℚ),
      (detectAnomalies ts tM tS).Perm (ts.filterMap (anomalyOf (categoryStats ts) tM tS))
      ∧ (detectAnomalies ts tM tS).Sorted zRank)
  ∧ (∀ (ts : List Transaction) (tM tS : ℚ) (t : Transaction), t.amount < 0 →
      ((anomalyOf (categoryStats ts) tM tS t).isSome = true ↔
        5 ≤ (expenseObs ts t.category).length
        ∧ qVariance (expenseObs ts t.category) ≠ 0
        ∧ zGe (|t.amount| - qMean (expenseObs ts t.category))
            (qVariance (expenseObs ts t.category)) tM = true))
  ∧ (∀ (ts : List Transaction) (tM tS : ℚ) (t : Transaction) (a : AnomalyResult),
      anomalyOf (categoryStats ts) tM tS t = some a →
      a.amount = t.amount ∧ a.transactionId = t.id
      ∧ a.devFromMean = |t.amount| - qMean (expenseObs ts t.category)
      ∧ a.variance = qVariance (expenseObs ts t.category) ∧ 0 < a.variance
      ∧ (a.severity = Severity.severe ↔ zGe a.devFromMean a.variance tS = true))
  ∧ (∀ (ts : List Transaction) (tM tS : ℚ) (t : Transaction),
      (∀ x ∈ expenseObs ts t.category, ∀ y ∈ expenseObs ts t.category, x = y) →
      anomalyOf (categoryStats ts) tM tS t = none)
  ∧ (∀ dev var t : ℚ, 0 < var →
      (zGe dev var t = true ↔ (t : ℝ) ≤ (dev : ℝ) / Real.sqrt ((var : ℚ) : ℝ)))
  ∧ (∀ a b : AnomalyResult, 0 < a.variance → 0 < b.variance →
      (zProxy a ≤ zProxy b
        ↔ (a.devFromMean : ℝ) / Real.sqrt ((a.variance : ℚ) : ℝ)
            ≤ (b.devFromMean : ℝ) / Real.sqrt ((b.variance : ℚ) : ℝ))) := by
  refine ⟨?_, ?_, ?_, ?_, ?_, zGe_iff_real, zProxy_le_iff_real⟩
  · intro ts tM tS a ha
    unfold detectAnomalies at ha
    have hmem : a ∈ ts.filterMap (anomalyOf (categoryStats ts) tM tS) :=
      (List.perm_insertionSort zRank _).mem_iff.mp ha
    rcases List.mem_filterMap.mp hmem with ⟨t, _, hsome⟩
    rcases anomalyOf_some_spec ts tM tS t a hsome with ⟨hneg, hamt, _⟩
    rw [hamt]
    exact hneg
  · intro ts tM tS
    exact ⟨List.perm_insertionSort _ _, List.sorted_insertionSort _ _⟩
  · intro ts tM tS t hneg
    exact anomalyOf_spec ts tM tS t hneg
  · intro ts tM tS t a h
    rcases anomalyOf_some_spec ts tM tS t a h with ⟨_, h1, _, h2, h3, h4, h5, h6⟩
    exact ⟨h1, h2, h3, h4, h5, h6⟩
  · intro ts tM tS t hconst
    by_cases hneg : t.amount < 0
    · have hv := qVariance_eq_zero_of_const _ hconst
      rcases hcase : anomalyOf (categoryStats ts) tM tS t with _ | a
      · rfl
      · have hs : (anomalyOf (categoryStats ts) tM tS t).isSome = true := by
          rw [hcase]
          rfl
        rcases (anomalyOf_spec ts tM tS t hneg).mp hs with ⟨_, hvne, _⟩
        exact absurd hv hvne
    · unfold anomalyOf
      rw [if_neg hneg]

/-- A debit observation used in the anomaly witness. -/
def anomTx (i : ℕ) (q : ℚ) : Transaction :=
  { id := some i, date := "2025-01-01".toList, description := "POS PURCHASE".toList,
    amount := q, type := TxType.debit, category := "Other".toList }

/-- Five expenses in one category, four of 100 and one outlier of 1000. -/
def anomTxs : List Transaction :=
  [anomTx 1 (-100), anomTx 2 (-100), anomTx 3 (-100), anomTx 4 (-100), anomTx 5 (-1000)]

/-- C9 — witness: the per-transaction flag criterion instantiated on the
outlier of a five-expense category. -/
theorem claim_C9_witness :
    (anomTx 5 (-1000)).amount < 0
    ∧ ((anomalyOf (categoryStats anomTxs) 2 3 (anomTx 5 (-1000))).isSome = true ↔
        5 ≤ (expenseObs anomTxs (anomTx 5 (-1000)).category).length
        ∧ qVariance (expenseObs anomTxs (anomTx 5 (-1000)).category) ≠ 0
        ∧ zGe (|(anomTx 5 (-1000)).amount|
              - qMean (expenseObs anomTxs (anomTx 5 (-1000)).category))
            (qVariance (expenseObs anomTxs (anomTx 5 (-1000)).category)) 2 = true) :=
  ⟨by decide, claim_C9.2.2.1 anomTxs 2 3 (anomTx 5 (-1000)) (by decide)⟩

/-! ## buildForecast (moving-average next-month forecast)

`forecast.ts` aggregates transactions by the month prefix of their date
(`date.slice(0, 7)`, a `Map` in insertion order sorted by `localeCompare`,
modeled as code-unit order, which agrees with it on the digit/dash month
keys), takes the trailing-window moving average of the monthly totals, and
projects the calendar month after the last observed month key. -/

/-- One row of the local `MonthlyAggregate` interface. -/
structure MonthlyAggregate where
  month : List Char
  income : ℚ
  expense : ℚ
  savings : ℚ
deriving DecidableEq, Repr

/-- `ForecastPoint` of types.ts. -/
structure ForecastPoint where
  month : List Char
  projectedIncome : ℚ
  projectedExpense : ℚ
  projectedSavings : ℚ
  method : List Char
deriving DecidableEq, Repr

/-- `ForecastResult` of types.ts (`nextMonth: ForecastPoint | null`). -/
structure ForecastResult where
  points : List ForecastPoint
  nextMonth : Option ForecastPoint
deriving DecidableEq, Repr

/-- One step of the month map: `entry = map.get(month) || {income: 0, expense: 0}`,
add to `income` when `amount >= 0` else add `|amount|` to `expense`, `set`
keeping insertion order (new keys append at the end). -/
def bumpMonth : List (List Char × (ℚ × ℚ)) → List Char → ℚ →
    List (List Char × (ℚ × ℚ))
  | [], k, q => [(k, if 0 ≤ q then (q, 0) else (0, |q|))]
  | e :: es, k, q =>
    if e.1 = k then
      (k, if 0 ≤ q then (e.2.1 + q, e.2.2) else (e.2.1, e.2.2 + |q|)) :: es
    else e :: bumpMonth es k q

/-- Month-key order of the sort `(a, b) => a[0].localeCompare(b[0])`. -/
def monthKeyLe (a b : List Char × (ℚ × ℚ)) : Prop := labelLe a.1 b.1

instance : DecidableRel monthKeyLe := fun a b => by unfold monthKeyLe; infer_instance

instance : IsTotal (List Char × (ℚ × ℚ)) monthKeyLe :=
  ⟨fun a b => lexLe_total a.1 b.1⟩

instance : IsTrans (List Char × (ℚ × ℚ)) monthKeyLe :=
  ⟨fun a b c => lexLe_trans a.1 b.1 c.1⟩

/-- `aggregateMonthly` of forecast.ts: group by `date.slice(0, 7)`, sort the
entries by month key, and emit `{month, income, expense, savings}` rows. -/
def aggregateMonthly (ts : List Transaction) : List MonthlyAggregate :=
  (List.insertionSort monthKeyLe
      (ts.foldl (fun m t => bumpMonth m (t.date.take 7) t.amount) [])).map
    (fun e => { month := e.1, income := e.2.1, expense := e.2.2,
                savings := e.2.1 - e.2.2 })

/-- JavaScript `values.slice(-window)` (`slice(-0)` is the whole array). -/
def sliceLast (l : List ℚ) (w : ℕ) : List ℚ :=
  if w = 0 then l else l.drop (l.length - w)

/-- `movingAverage` of forecast.ts. -/
def movingAverage (values : List ℚ) (w : ℕ) : Option ℚ :=
  if values = [] then none
  else if sliceLast values w = [] then none
  else some ((sliceLast values w).sum / ((sliceLast values w).length : ℚ))

/-- `parseInt(s, 10)`: skip leading whitespace, optional sign, then the
longest digit prefix; `NaN` (here `none`) when no digit follows. -/
def parseIntJS (l : List Char) : Option ℤ :=
  match l.dropWhile Char.isWhitespace with
  | '-' :: rest =>
    if rest.takeWhile Char.isDigit = [] then none
    else some (-(digitsToNat (rest.takeWhile Char.isDigit) : ℤ))
  | '+' :: rest =>
    if rest.takeWhile Char.isDigit = [] then none
    else some ((digitsToNat (rest.takeWhile Char.isDigit) : ℤ))
  | l1 =>
    if l1.takeWhile Char.isDigit = [] then none
    else some ((digitsToNat (l1.takeWhile Char.isDigit) : ℤ))

/-- Seven consecutive characters shaped `\d\d\d\d-\d\d`. -/
def ymShape (l : List Char) : Bool :=
  match l with
  | d1 :: d2 :: d3 :: d4 :: h :: m1 :: m2 :: _ =>
    d1.isDigit && d2.isDigit && d3.isDigit && d4.isDigit
      && decide (h = '-') && m1.isDigit && m2.isDigit
  | _ => false

/-- The unanchored regex test `/\d{4}-\d{2}/.test(s)`: some suffix starts
with the shape. -/
def testYM : List Char → Bool
  | [] => false
  | c :: rest => ymShape (c :: rest) || testYM rest

/-- `String.prototype.padStart(2, '0')` on an already rendered string. -/
def padStart2 (l : List Char) : List Char :=
  if l.length < 2 then List.replicate (2 - l.length) '0' ++ l else l

/-- `buildForecast` of forecast.ts (window default 3): empty forecast on an
empty monthly series or a last month key failing the regex; otherwise one
point for the month after the last key, projecting trailing-window
averages. -/
def buildForecast (ts : List Transaction) (w : ℕ) : ForecastResult :=
  let monthly := aggregateMonthly ts
  match monthly.getLast? with
  | none => { points := [], nextMonth := none }
  | some last =>
    let projectedIncome := (movingAverage (monthly.map (fun m => m.income)) w).getD 0
    let projectedExpense := (movingAverage (monthly.map (fun m => m.expense)) w).getD 0
    let projectedSavings := projectedIncome - projectedExpense
    let lastMonth := last.month
    if lastMonth.isEmpty || !testYM lastMonth then { points := [], nextMonth := none }
    else
      let parts := splitOnChar '-' lastMonth
      let yearO := parseIntJS (parts.headD [])
      let monthO := match parts with
        | _ :: p1 :: _ => parseIntJS p1
        | _ => none
      let nextDate :=
        if monthO = some 12 then
          (match yearO with
            | some y => intToChars (y + 1)
            | none => "NaN".toList) ++ "-01".toList
        else
          (match yearO with
            | some y => intToChars y
            | none => "NaN".toList)
            ++ '-' :: padStart2 (match monthO with
                | some m => intToChars (m + 1)
                | none => "NaN".toList)
      let fp : ForecastPoint :=
        { month := nextDate, projectedIncome := projectedIncome,
          projectedExpense := projectedExpense, projectedSavings := projectedSavings,
          method := "moving-average-".toList ++ natDigits w }
      { points := [fp], nextMonth := some fp }

theorem isDigit_ne_plus (c : Char) (h : c.isDigit = true) : c ≠ '+' := by
  intro hc; subst hc; exact absurd h (by decide)

theorem exists_len2 (l : List Char) (h : l.length = 2) : ∃ a b, l = [a, b] := by
  rcases l with _ | ⟨a, l⟩
  · simp at h
  rcases l with _ | ⟨b, l⟩
  · simp at h
  rcases l with _ | ⟨c, l⟩
  · exact ⟨a, b, rfl⟩
  · exfalso
    simp only [List.length_cons] at h
    omega

theorem exists_len4 (l : List Char) (h : l.length = 4) : ∃ a b c d, l = [a, b, c, d] := by
  rcases l with _ | ⟨a, l⟩
  · simp at h
  rcases l with _ | ⟨b, l⟩
  · simp at h
  rcases l with _ | ⟨c, l⟩
  · simp at h
  rcases l with _ | ⟨d, l⟩
  · simp at h
  rcases l with _ | ⟨e, l⟩
  · exact ⟨a, b, c, d, rfl⟩
  · exfalso
    simp only [List.length_cons] at h
    omega

theorem parseIntJS_digits (l : List Char) (hne : l ≠ [])
    (hds : ∀ c ∈ l, c.isDigit = true) :
    parseIntJS l = some ((digitsToNat l : ℕ) : ℤ) := by
  rcases l with _ | ⟨c, rest⟩
  · exact absurd rfl hne
  have hc : c.isDigit = true := hds c (by simp)
  have hdrop : (c :: rest).dropWhile Char.isWhitespace = c :: rest :=
    dropWhile_eq_self_of _ _ (fun x hx => isDigit_not_ws x (hds x hx))
  have htake : (c :: rest).takeWhile Char.isDigit = c :: rest :=
    takeWhile_eq_self_of _ _ hds
  unfold parseIntJS
  rw [hdrop]
  have hcd : c ≠ '-' := isDigit_ne_dash c hc
  have hcp : c ≠ '+' := isDigit_ne_plus c hc
  cases c with
  | mk v hv =>
    split
    · next heq =>
      injection heq with h1 h2
      exact absurd h1 hcd
    · next heq =>
      injection heq with h1 h2
      exact absurd h1 hcp
    · next h1 h2 =>
      rw [htake, if_neg (by simp)]

theorem intToChars_natCast (n : ℕ) : intToChars (n : ℤ) = natDigits n := by
  unfold intToChars
  rw [if_neg (by exact_mod_cast Int.not_lt.mpr (Int.natCast_nonneg n))]
  simp

theorem padStart2_natDigits (k : ℕ) (h1 : 1 ≤ k) (h2 : k ≤ 99) :
    padStart2 (natDigits k) = pad2 k := by
  by_cases hk : k ≤ 9
  · have hlen : (natDigits k).length = 1 := by
      have h := natDigits_length k 0 (by norm_num; omega) (by norm_num; omega)
      simpa using h
    unfold padStart2 pad2
    simp [hlen]
  · have hlen : (natDigits k).length = 2 := by
      have h := natDigits_length k 1 (by norm_num; omega) (by norm_num; omega)
      simpa using h
    unfold padStart2 pad2
    simp [hlen]

theorem bumpMonth_ne_nil (m : List (List Char × (ℚ × ℚ))) (k : List Char) (q : ℚ) :
    bumpMonth m k q ≠ [] := by
  cases m with
  | nil => simp [bumpMonth]
  | cons e es =>
    unfold bumpMonth
    split <;> simp

theorem aggregateMonthly_eq_nil_iff (ts : List Transaction) :
    aggregateMonthly ts = [] ↔ ts = [] := by
  constructor
  · intro h
    cases ts with
    | nil => rfl
    | cons t ts' =>
      exfalso
      have haux : ∀ (l : List Transaction) (m : List (List Char × (ℚ × ℚ))), m ≠ [] →
          l.foldl (fun m t => bumpMonth m (t.date.take 7) t.amount) m ≠ [] := by
        intro l
        induction l with
        | nil => intro m hm; exact hm
        | cons x xs ih =>
          intro m hm
          rw [List.foldl_cons]
          exact ih _ (bumpMonth_ne_nil _ _ _)
      have hfold : (t :: ts').foldl
          (fun m t => bumpMonth m (t.date.take 7) t.amount) [] ≠ [] := by
        rw [List.foldl_cons]
        exact haux ts' _ (bumpMonth_ne_nil _ _ _)
      unfold aggregateMonthly at h
      rw [List.map_eq_nil_iff] at h
      have hperm := List.perm_insertionSort monthKeyLe
        ((t :: ts').foldl (fun m t => bumpMonth m (t.date.take 7) t.amount) [])
      rw [h] at hperm
      exact hfold hperm.symm.eq_nil
  · rintro rfl
    rfl

theorem buildForecast_empty (ts : List Transaction) (w : ℕ)
    (h : aggregateMonthly ts = []) :
    buildForecast ts w = { points := [], nextMonth := none } := by
  unfold buildForecast
  rw [h]
  rfl

theorem buildForecast_malformed (ts : List Transaction) (w : ℕ)
    (last : MonthlyAggregate)
    (h : (aggregateMonthly ts).getLast? = some last)
    (hym : testYM last.month = false) :
    buildForecast ts w = { points := [], nextMonth := none } := by
  unfold buildForecast
  simp only [h]
  simp [hym]

theorem movingAverage_spec (values : List ℚ) (w : ℕ) (hne : values ≠ [])
    (hw : 0 < w) :
    movingAverage values w
      = some ((values.drop (values.length - w)).sum
          / ((values.drop (values.length - w)).length : ℚ))
    ∧ (values.drop (values.length - w)).length = min w values.length := by
  have hw0 : w ≠ 0 := Nat.pos_iff_ne_zero.mp hw
  have hslice : sliceLast values w = values.drop (values.length - w) := by
    unfold sliceLast
    rw [if_neg hw0]
  have hlen : (values.drop (values.length - w)).length = min w values.length := by
    rw [List.length_drop]
    omega
  have hlenpos : 0 < (values.drop (values.length - w)).length := by
    rw [hlen]
    have hvp : 0 < values.length := List.length_pos.mpr hne
    omega
  have hsne : values.drop (values.length - w) ≠ [] := by
    intro hcon
    rw [hcon] at hlenpos
    simp at hlenpos
  unfold movingAverage
  rw [if_neg hne, hslice, if_neg hsne]
  exact ⟨rfl, hlen⟩

theorem buildForecast_next (ts : List Transaction) (w : ℕ) (Y M : ℕ)
    (h1 : ((aggregateMonthly ts).getLast?).map (fun m => m.month)
        = some (natDigits Y ++ '-' :: pad2 M))
    (hY1 : 1000 ≤ Y) (hY2 : Y ≤ 9999) (hM1 : 1 ≤ M) (hM2 : M ≤ 12) :
    ∃ fp : ForecastPoint,
      buildForecast ts w = { points := [fp], nextMonth := some fp }
      ∧ fp.month = (if M = 12 then natDigits (Y + 1) ++ "-01".toList
          else natDigits Y ++ '-' :: pad2 (M + 1))
      ∧ fp.projectedIncome
          = (movingAverage ((aggregateMonthly ts).map (fun m => m.income)) w).getD 0
      ∧ fp.projectedExpense
          = (movingAverage ((aggregateMonthly ts).map (fun m => m.expense)) w).getD 0
      ∧ fp.projectedSavings = fp.projectedIncome - fp.projectedExpense
      ∧ fp.method = "moving-average-".toList ++ natDigits w := by
  rcases hcase : (aggregateMonthly ts).getLast? with _ | last
  · rw [hcase] at h1
    exact absurd h1 (by simp)
  rw [hcase] at h1
  simp only [Option.map_some', Option.some.injEq] at h1
  obtain ⟨a, b, c, d, hY⟩ := exists_len4 (natDigits Y) (natDigits_length4 Y hY1 hY2)
  obtain ⟨e, f, hM⟩ := exists_len2 (pad2 M) (pad2_length M (by omega))
  have hda : a.isDigit = true := natDigits_isDigit Y a (by rw [hY]; simp)
  have hdb : b.isDigit = true := natDigits_isDigit Y b (by rw [hY]; simp)
  have hdc : c.isDigit = true := natDigits_isDigit Y c (by rw [hY]; simp)
  have hdd : d.isDigit = true := natDigits_isDigit Y d (by rw [hY]; simp)
  have hde : e.isDigit = true := pad2_isDigit M e (by rw [hM]; simp)
  have hdf : f.isDigit = true := pad2_isDigit M f (by rw [hM]; simp)
  have hlist : last.month = a :: b :: c :: d :: '-' :: e :: f :: [] := by
    rw [h1, hY, hM]
    rfl
  have hymsh : ymShape (a :: b :: c :: d :: '-' :: e :: f :: []) = true := by
    unfold ymShape
    simp [hda, hdb, hdc, hdd, hde, hdf]
  have htest : testYM last.month = true := by
    rw [hlist]
    rw [show testYM (a :: b :: c :: d :: '-' :: e :: f :: [])
        = (ymShape (a :: b :: c :: d :: '-' :: e :: f :: [])
            || testYM (b :: c :: d :: '-' :: e :: f :: [])) from rfl]
    rw [hymsh]
    simp
  have hnonempty : last.month.isEmpty = false := by
    rw [hlist]
    rfl
  have hnodashY : '-' ∉ natDigits Y := fun hmem =>
    (isDigit_ne_dash '-' (natDigits_isDigit Y '-' hmem)) rfl
  have hnodashM : '-' ∉ pad2 M := fun hmem =>
    (isDigit_ne_dash '-' (pad2_isDigit M '-' hmem)) rfl
  have hsplit : splitOnChar '-' last.month = [natDigits Y, pad2 M] := by
    rw [h1, splitOnChar_append _ _ _ hnodashY, splitOnChar_of_not_mem _ _ hnodashM]
  have hYne : natDigits Y ≠ [] := by
    rw [hY]
    simp
  have hMne : pad2 M ≠ [] := by
    rw [hM]
    simp
  have hpY : parseIntJS (natDigits Y) = some ((Y : ℕ) : ℤ) := by
    rw [parseIntJS_digits _ hYne (natDigits_isDigit Y), digitsToNat_natDigits]
  have hpM : parseIntJS (pad2 M) = some ((M : ℕ) : ℤ) := by
    rw [parseIntJS_digits _ hMne (pad2_isDigit M), pad2_val]
  unfold buildForecast
  simp only [hcase, hnonempty, htest, Bool.not_true, Bool.or_false, Bool.false_eq_true,
    if_false, hsplit, List.headD_cons, hpY, hpM]
  by_cases hM12 : M = 12
  · rw [if_pos (by rw [hM12]; norm_num)]
    refine ⟨_, rfl, ?_, rfl, rfl, rfl, rfl⟩
    rw [if_pos hM12]
    show intToChars ((Y : ℤ) + 1) ++ "-01".toList = natDigits (Y + 1) ++ "-01".toList
    rw [show ((Y : ℤ) + 1) = ((Y + 1 : ℕ) : ℤ) by push_cast; ring, intToChars_natCast]
  · rw [if_neg (fun hcon => hM12 (by exact_mod_cast Option.some.inj hcon))]
    refine ⟨_, rfl, ?_, rfl, rfl, rfl, rfl⟩
    rw [if_neg hM12]
    show intToChars (Y : ℤ) ++ '-' :: padStart2 (intToChars ((M : ℤ) + 1))
        = natDigits Y ++ '-' :: pad2 (M + 1)
    rw [intToChars_natCast, show ((M : ℤ) + 1) = ((M + 1 : ℕ) : ℤ) by push_cast; ring,
      intToChars_natCast, padStart2_natDigits (M + 1) (by omega) (by omega)]

/-- A transaction of the two-month forecast example. -/
def fcTx (d : List Char) (q : ℚ) (ty : TxType) : Transaction :=
  { id := none, date := d, description := "MONTHLY FLOW".toList,
    amount := q, type := ty, category := "Other".toList }

/-- January: income 100000, expense 50000; February: income 120000,
expense 60000. -/
def fcTxs : List Transaction :=
  [fcTx "2025-01-10".toList 100000 TxType.credit,
   fcTx "2025-01-15".toList (-50000) TxType.debit,
   fcTx "2025-02-10".toList 120000 TxType.credit,
   fcTx "2025-02-15".toList (-60000) TxType.debit]

theorem fcTxs_fold :
    fcTxs.foldl (fun m t => bumpMonth m (t.date.take 7) t.amount) []
      = [("2025-01".toList, ((100000 : ℚ), (50000 : ℚ))),
         ("2025-02".toList, ((120000 : ℚ), (60000 : ℚ)))] := by
  have hne12 : ¬ (("2025-01".toList : List Char) = "2025-02".toList) := by decide
  have hq1 : (("2025-01-10".toList : List Char)).take 7 = "2025-01".toList := by decide
  have hq2 : (("2025-01-15".toList : List Char)).take 7 = "2025-01".toList := by decide
  have hq3 : (("2025-02-10".toList : List Char)).take 7 = "2025-02".toList := by decide
  have hq4 : (("2025-02-15".toList : List Char)).take 7 = "2025-02".toList := by decide
  simp only [fcTxs, fcTx, List.foldl_cons, List.foldl_nil]
  rw [hq1, hq2, hq3, hq4]
  norm_num [bumpMonth, hne12]
  all_goals decide

theorem fcTxs_monthly :
    aggregateMonthly fcTxs
      = [{ month := "2025-01".toList, income := 100000, expense := 50000,
           savings := 50000 },
         { month := "2025-02".toList, income := 120000, expense := 60000,
           savings := 60000 }] := by
  unfold aggregateMonthly
  rw [fcTxs_fold]
  have hsort : List.insertionSort monthKeyLe
      [("2025-01".toList, ((100000 : ℚ), (50000 : ℚ))),
       ("2025-02".toList, ((120000 : ℚ), (60000 : ℚ)))]
      = [("2025-01".toList, ((100000 : ℚ), (50000 : ℚ))),
         ("2025-02".toList, ((120000 : ℚ), (60000 : ℚ)))] := by
    show List.orderedInsert monthKeyLe _ (List.orderedInsert monthKeyLe _ []) = _
    rw [List.orderedInsert, List.orderedInsert, if_pos (by decide)]
  rw [hsort]
  simp only [List.map_cons, List.map_nil]
  norm_num

/-- C10: `buildForecast` returns an empty forecast (no points, null
`nextMonth`) exactly when there are no transactions, and also when the
last month key fails the `\d{4}-\d{2}` test; `movingAverage` averages the
trailing `min window length` values; for a well-formed last month
`YYYY-MM` it returns a single point — also set as `nextMonth` — for the
calendar month immediately after (December rolls over to January of the
next year), projecting the trailing-window averages of monthly income and
expense and their difference as savings; on the two-month example series
(January 100000/50000, February 120000/60000) with window 3 the forecast
month is `2025-03` with projected income 110000, expense 55000 and
savings 55000. -/
theorem claim_C10 :
    ((∀ (ts : List Transaction) (w : ℕ), aggregateMonthly ts = [] →
        buildForecast ts w = { points := [], nextMonth := none })
      ∧ (∀ ts : List Transaction, aggregateMonthly ts = [] ↔ ts = []))
    ∧ (∀ (ts : List Transaction) (w : ℕ) (last : MonthlyAggregate),
        (aggregateMonthly ts).getLast? = some last →
        testYM last.month = false →
        buildForecast ts w = { points := [], nextMonth := none })
    ∧ (∀ (values : List ℚ) (w : ℕ), values ≠ [] → 0 < w →
        movingAverage values w
          = some ((values.drop (values.length - w)).sum
              / ((values.drop (values.length - w)).length : ℚ))
        ∧ (values.drop (values.length - w)).length = min w values.length)
    ∧ (∀ (ts : List Transaction) (w : ℕ) (Y M : ℕ),
        ((aggregateMonthly ts).getLast?).map (fun m => m.month)
            = some (natDigits Y ++ '-' :: pad2 M) →
        1000 ≤ Y → Y ≤ 9999 → 1 ≤ M → M ≤ 12 →
        ∃ fp : ForecastPoint,
          buildForecast ts w = { points := [fp], nextMonth := some fp }
          ∧ fp.month = (if M = 12 then natDigits (Y + 1) ++ "-01".toList
              else natDigits Y ++ '-' :: pad2 (M + 1))
          ∧ fp.projectedIncome
              = (movingAverage ((aggregateMonthly ts).map (fun m => m.income)) w).getD 0
          ∧ fp.projectedExpense
              = (movingAverage ((aggregateMonthly ts).map (fun m => m.expense)) w).getD 0
          ∧ fp.projectedSavings = fp.projectedIncome - fp.projectedExpense
          ∧ fp.method = "moving-average-".toList ++ natDigits w)
    ∧ (buildForecast fcTxs 3).nextMonth.map
          (fun p => (p.month, p.projectedIncome, p.projectedExpense,
            p.projectedSavings, p.method))
        = some ("2025-03".toList, (110000 : ℚ), 55000, 55000,
            "moving-average-3".toList) := by
  refine ⟨⟨buildForecast_empty, aggregateMonthly_eq_nil_iff⟩, buildForecast_malformed,
    movingAverage_spec, buildForecast_next, ?_⟩
  have h1 : ((aggregateMonthly fcTxs).getLast?).map (fun m => m.month)
      = some (natDigits 2025 ++ '-' :: pad2 2) := by
    rw [fcTxs_monthly]
    decide
  obtain ⟨fp, hbf, hmonth, hinc, hexp, hsav, hmeth⟩ :=
    buildForecast_next fcTxs 3 2025 2 h1 (by norm_num) (by norm_num) (by norm_num)
      (by norm_num)
  rw [if_neg (by norm_num)] at hmonth
  have hmonth' : fp.month = "2025-03".toList := by
    rw [hmonth]
    decide
  have hinc' : fp.projectedIncome = 110000 := by
    rw [hinc, fcTxs_monthly]
    simp only [List.map_cons, List.map_nil]
    norm_num [movingAverage, sliceLast]
    simp
  have hexp' : fp.projectedExpense = 55000 := by
    rw [hexp, fcTxs_monthly]
    simp only [List.map_cons, List.map_nil]
    norm_num [movingAverage, sliceLast]
    simp
  have hsav' : fp.projectedSavings = 55000 := by
    rw [hsav, hinc', hexp']
    norm_num
  have hmeth' : fp.method = "moving-average-3".toList := by
    rw [hmeth]
    decide
  rw [hbf]
  simp only [Option.map_some']
  rw [hmonth', hinc', hexp', hsav', hmeth']

/-- C10 — witness: the well-formed-last-month conclusion instantiated on
the two-month example series with window 3. -/
theorem claim_C10_witness :
    ∃ fp : ForecastPoint,
      buildForecast fcTxs 3 = { points := [fp], nextMonth := some fp }
      ∧ fp.month = (if 2 = 12 then natDigits (2025 + 1) ++ "-01".toList
          else natDigits 2025 ++ '-' :: pad2 (2 + 1))
      ∧ fp.projectedIncome
          = (movingAverage ((aggregateMonthly fcTxs).map (fun m => m.income)) 3).getD 0
      ∧ fp.projectedExpense
          = (movingAverage ((aggregateMonthly fcTxs).map (fun m => m.expense)) 3).getD 0
      ∧ fp.projectedSavings = fp.projectedIncome - fp.projectedExpense
      ∧ fp.method = "moving-average-".toList ++ natDigits 3 :=
  claim_C10.2.2.2.1 fcTxs 3 2025 2 (by decide) (by decide) (by decide) (by decide)
    (by decide)
